import Mathlib

/-!
# Verification of the tw-hipster JDL extraction pipeline

This file gives a shallow embedding of the JDL (JHipster domain language)
extraction and model-assembly pipeline of `src/cli.js` and proves the
specification claims about it.

The embedding works on `List Char` throughout.  The JavaScript regex-driven
extraction is modelled by explicit scanners that, at each character position,
attempt a deterministic match of the corresponding regular expression and
otherwise advance one character — exactly the observable behaviour of the
`while ((m = re.exec(text)) !== null)` loops in the source.  JavaScript
objects used as string-keyed dictionaries (`entities`, `enums`) are modelled
as association lists with insert-or-overwrite (last-writer-wins) semantics.
-/

namespace TwHipster

/-! ## Character classes (JS `\s`, `\w`, `[\w<>]`) -/

/-- JS `\s` restricted to the ASCII whitespace characters that can occur in a
JDL document: space, tab, newline, carriage return, vertical tab, form feed.
Also the set trimmed by `String.prototype.trim`. -/
def isSpaceChar (c : Char) : Bool :=
  c = ' ' || c = '\t' || c = '\n' || c = '\r' || c = '\x0b' || c = '\x0c'

/-- JS `\w`: ASCII letters, digits and underscore. -/
def isWordChar (c : Char) : Bool :=
  ('a' ≤ c && c ≤ 'z') || ('A' ≤ c && c ≤ 'Z') || ('0' ≤ c && c ≤ '9') || c = '_'

/-- The character class `[\w<>]` of the field-type capture group. -/
def isWordAngleChar (c : Char) : Bool :=
  isWordChar c || c = '<' || c = '>'

/-! ## Basic string operations -/

/-- JS `String.prototype.trim`: drop whitespace from both ends. -/
def trim (l : List Char) : List Char :=
  ((l.dropWhile isSpaceChar).reverse.dropWhile isSpaceChar).reverse

/-- JS `line.startsWith('//')`. -/
def startsWithSlashSlash (l : List Char) : Bool :=
  List.isPrefixOf ['/', '/'] l

/-- Index of the first occurrence of the two-character substring `//`
(JS `restOfLine.indexOf('//')`), `none` when absent. -/
def indexOfSlashSlash : List Char → Option Nat
  | '/' :: '/' :: _ => some 0
  | _ :: rest => (indexOfSlashSlash rest).map (· + 1)
  | [] => none

/-- Split a list on the separator character `sep`
(JS `String.prototype.split(sep)`): `splitOnChar ',' "a,,b" = ["a","","b"]`. -/
def splitOnChar (sep : Char) (l : List Char) : List (List Char) :=
  l.splitOn sep

/-- Split on runs of whitespace, discarding empty tokens
(JS `s.split(/\s+/).filter(Boolean)`). -/
def splitWsTokens (l : List Char) : List (List Char) :=
  (l.splitOnP isSpaceChar).filter (· ≠ [])

/-! ## Matching primitives

`lit pat l` matches the literal `pat` at the head of `l` and returns the
remainder; `takeWhile1 p l` matches a non-empty maximal run of characters
satisfying `p` (the regex `p+`, which never backtracks here because every
follower class in the source's regexes is disjoint from `p`). -/

/-- Match a literal prefix, returning the rest of the input. -/
def lit : List Char → List Char → Option (List Char)
  | [], l => some l
  | p :: ps, c :: cs => if c = p then lit ps cs else none
  | _ :: _, [] => none

/-- Match a non-empty maximal run of characters satisfying `p` (regex `p+`). -/
def takeWhile1 (p : Char → Bool) (l : List Char) : Option (List Char × List Char) :=
  if l.takeWhile p = [] then none else some (l.takeWhile p, l.dropWhile p)

/-- Match a possibly-empty maximal run of characters satisfying `p` (regex `p*`). -/
def takeWhileP (p : Char → Bool) (l : List Char) : List Char × List Char :=
  (l.takeWhile p, l.dropWhile p)

/-! ## Comment stripper

`jdlContent.replace(/\/\*[\s\S]*?\*\//g, '')`: repeatedly, the leftmost
`/*` paired with the nearest following `*/` is removed (lazy `*?`); an
unterminated `/*` is left in place.  The recursion is fuelled; the wrapper
supplies the input length, which is always sufficient since every step
consumes at least one character. -/

/-- Scan for the closing `*/`; on success return the input after it. -/
def findClose : List Char → Option (List Char)
  | c :: d :: rest => if c = '*' ∧ d = '/' then some rest else findClose (d :: rest)
  | _ => none

/-- One fuelled pass of the block-comment stripper. -/
def stripAux : Nat → List Char → List Char
  | 0, l => l
  | _ + 1, [] => []
  | _ + 1, [c] => [c]
  | fuel + 1, c :: d :: rest =>
    if c = '/' ∧ d = '*' then
      match findClose rest with
      | none => c :: d :: rest
      | some rest' => stripAux fuel rest'
    else c :: stripAux fuel (d :: rest)

/-- JS `content.replace(/\/\*[\s\S]*?\*\//g, '')`. -/
def stripBlockComments (l : List Char) : List Char :=
  stripAux l.length l

/-- Does the list contain the two-character substring `/*`? -/
def hasOpen : List Char → Bool
  | c :: d :: rest => (c = '/' && d = '*') || hasOpen (d :: rest)
  | _ => false

/-- Does the list contain the two-character substring `*/`? -/
def hasClose : List Char → Bool
  | c :: d :: rest => (c = '*' && d = '/') || hasClose (d :: rest)
  | _ => false

/-! ## Greedy reading of the comment stripper (spec side)

The specification describes block-comment spans as "spanning greedily".
Under the greedy regex reading `/\/\*[\s\S]*\*\//g`, a span runs from the
first `/*` to the *last* `*/` of the document; the text after that last
`*/` contains no further `*/`, so no second match is possible. -/

/-- Split at the first `/*`: the prefix before it and the suffix after it. -/
def splitAtOpen : List Char → Option (List Char × List Char)
  | c :: d :: rest =>
    if c = '/' ∧ d = '*' then some ([], rest)
    else (splitAtOpen (d :: rest)).map (fun p => (c :: p.1, p.2))
  | _ => none

/-- The suffix after the *last* `*/` of the list, if any. -/
def afterLastClose : List Char → Option (List Char)
  | c :: d :: rest =>
    if c = '*' ∧ d = '/' then some ((afterLastClose rest).getD rest)
    else afterLastClose (d :: rest)
  | _ => none

/-- The comment stripper as the specification words it, with a greedy span:
everything from the first `/*` through the last following `*/` is removed. -/
def greedyStripBlockComments (l : List Char) : List Char :=
  match splitAtOpen l with
  | none => l
  | some (pre, rest) =>
    match afterLastClose rest with
    | none => l
    | some suffix => pre ++ suffix

/-! ## The positional line-comment predicate `isCommented(content, index)` -/

/-- Index of the last newline within the list (used on a truncated prefix to
model JS `content.lastIndexOf('\n', index)`). -/
def lastNewlineIdx (l : List Char) : Option Nat :=
  (l.foldl (fun acc c =>
    (if c = '\n' then some acc.2 else acc.1, acc.2 + 1)) ((none : Option Nat), 0)).1

/-- The predicate `isCommented(content, index)` from the source: the line containing
`index`, truncated to the characters strictly before `index`, begins (after
trimming) with `//`. -/
def isCommented (content : List Char) (index : Nat) : Bool :=
  let lineStart : Nat :=
    match lastNewlineIdx (content.take (index + 1)) with
    | none => 0
    | some j => j + 1
  let line := (content.drop lineStart).take (index - lineStart)
  startsWithSlashSlash (trim line)

/-! ## Data model -/

/-- One attribute of an entity (`fields.push({...})` in the source). -/
structure Field where
  fieldName : List Char
  fieldType : List Char
  fieldTypeIsEnum : Bool
  fieldValidateRules : List (List Char)
  comment : Option (List Char)
  deriving Repr, DecidableEq

/-- A named record type with an ordered field list. -/
structure Entity where
  name : List Char
  fields : List Field
  deriving Repr, DecidableEq

/-- A named, ordered list of symbolic values.  The source wraps each value in a
one-field object `{ name: v }`; the wrapper is elided here. -/
structure Enum where
  name : List Char
  values : List (List Char)
  deriving Repr, DecidableEq

/-- One endpooint of a relationship: entity name plus optional role field. -/
structure RelEnd where
  name : List Char
  fieldName : Option (List Char)
  deriving Repr, DecidableEq

/-- A directed, typed association between two entities. -/
structure Rel where
  type : List Char
  frm : RelEnd
  toE : RelEnd
  deriving Repr, DecidableEq

/-- The value of `parseJdl`. -/
structure JdlModel where
  entities : List Entity
  enums : List Enum
  relationships : List Rel
  deriving Repr, DecidableEq

/-- The `AUDIT_FIELDS` constant of the source, verbatim. -/
def AUDIT_FIELDS : List Field :=
  [ { fieldName := "createdBy".toList, fieldType := "String".toList,
      fieldTypeIsEnum := false, fieldValidateRules := [], comment := none },
    { fieldName := "createdDate".toList, fieldType := "Instant".toList,
      fieldTypeIsEnum := false, fieldValidateRules := [], comment := none },
    { fieldName := "lastModifiedBy".toList, fieldType := "String".toList,
      fieldTypeIsEnum := false, fieldValidateRules := [], comment := none },
    { fieldName := "lastModifiedDate".toList, fieldType := "Instant".toList,
      fieldTypeIsEnum := false, fieldValidateRules := [], comment := none } ]

/-! ## Plain JS objects used as dictionaries

The source keeps `entities`, `enums` and `typeMappings` in plain object
literals, which inherit from `Object.prototype`.  Three consequences of the
prototype chain are observable and modelled here:

* `obj[k] = v` for `k = "__proto__"` invokes the inherited accessor setter —
  it *replaces the object's prototype* and creates no own property, so the
  record never appears in `Object.values`;
* a read `obj[k]` that misses every own property still finds the inherited
  `Object.prototype` members (`toString`, `valueOf`, `constructor`, …), which
  are all truthy;
* after `obj["__proto__"] = r`, reads also see `r`'s own properties.

Own properties are kept as an association list in insertion order: an
existing key keeps its original position and gets the new value, a new key is
appended, matching JS own-property insertion order.  (`Object.values` orders
integer-like keys first; no claim here depends on the order of the value
list, so that reordering is not modelled.) -/

/-- Insert-or-overwrite of an *own* property — the path taken by
`obj[k] = v` for every key other than `__proto__` (see `insertJs`). -/
def insertLWW : List (List Char × α) → List Char → α → List (List Char × α)
  | [], k, v => [(k, v)]
  | p :: rest, k, v =>
    if p.1 = k then (k, v) :: rest else p :: insertLWW rest k v

/-- JS `Object.values`: the own enumerable properties' values. -/
def valuesOf (m : List (List Char × α)) : List α :=
  m.map (·.2)

/-- Own-property lookup. -/
def getLWW : List (List Char × α) → List Char → Option α
  | [], _ => none
  | p :: rest, k => if p.1 = k then some p.2 else getLWW rest k

/-- The own property names of `Object.prototype`, inherited by every plain
object literal.  A lookup of any of these names on `{}` finds a function
(or, for `__proto__`, the accessor returning the prototype object) — all
truthy values. -/
def OBJECT_PROTOTYPE_KEYS : List (List Char) :=
  ["constructor".toList, "hasOwnProperty".toList, "isPrototypeOf".toList,
   "propertyIsEnumerable".toList, "toLocaleString".toList, "toString".toList,
   "valueOf".toList, "__defineGetter__".toList, "__defineSetter__".toList,
   "__lookupGetter__".toList, "__lookupSetter__".toList, "__proto__".toList]

/-- A plain JS object holding records of type `α`: its own enumerable
properties, and its prototype — `none` for the default `Object.prototype`,
`some r` after an assignment `obj["__proto__"] = r` replaced it with the
record `r`. -/
structure JsObject (α : Type) where
  own : List (List Char × α)
  proto : Option α
  deriving Repr, DecidableEq

/-- The object literal `{}`. -/
def emptyJsObject : JsObject α := { own := [], proto := none }

/-- `obj[k] = v` on a plain JS object: the key `__proto__` hits the inherited
accessor of `Object.prototype`, replacing the object's prototype and creating
no own property; every other key inserts or overwrites an own property. -/
def insertJs (o : JsObject α) (k : List Char) (v : α) : JsObject α :=
  if k = "__proto__".toList then { o with proto := some v }
  else { o with own := insertLWW o.own k v }

/-- Build a dictionary from a list of records keyed by `key`, by successive
assignments into an initially empty object literal. -/
def buildJsObject (key : α → List Char) (recs : List α) : JsObject α :=
  recs.foldl (fun acc r => insertJs acc (key r) r) emptyJsObject

/-! ## Enum matcher: `enum\s+(\w+)\s*\{([^}]+)\}` -/

/-- Attempt the enum regex at the head of the input; on success return the
captured name and brace body together with the input after the match. -/
def tryEnum (l : List Char) : Option ((List Char × List Char) × List Char) := do
  let l ← lit "enum".toList l
  let (_, l) ← takeWhile1 isSpaceChar l
  let (name, l) ← takeWhile1 isWordChar l
  let (_, l) := takeWhileP isSpaceChar l
  let l ← lit ['{'] l
  let (body, l) ← takeWhile1 (fun c => c ≠ '}') l
  let l ← lit ['}'] l
  pure ((name, body), l)

/-- Parse the comma-separated value list of an enum body:
`body.trim().split(',').map(v => v.trim().split('(')[0].trim()).filter(Boolean)`. -/
def mkEnumValues (body : List Char) : List (List Char) :=
  ((splitOnChar ',' (trim body)).map
    (fun v => trim ((trim v).takeWhile (fun c => c ≠ '(')))).filter (· ≠ [])

/-! ## Entity matcher: `(?:@EnableAudit\s+)?entity\s+(\w+)\s*\{([^}]+)\}`

The optional prefix is tried first (regex `?` is greedy); when the prefix
matches but the rest fails, backtracking retries without the prefix at the
same position, which always fails because the position then starts with `@`
and not `e` — so the fallback is only taken when the prefix itself fails.
The source computes the audit flag as
`entityMatch[0].trim().startsWith('@EnableAudit')`, which is true exactly
when the optional prefix participated in the match (the match starts at the
`@`, so the `trim` is a no-op on the front). -/

/-- Attempt `entity\s+(\w+)\s*\{([^}]+)\}` at the head of the input. -/
def tryEntityCore (l : List Char) : Option ((List Char × List Char) × List Char) := do
  let l ← lit "entity".toList l
  let (_, l) ← takeWhile1 isSpaceChar l
  let (name, l) ← takeWhile1 isWordChar l
  let (_, l) := takeWhileP isSpaceChar l
  let l ← lit ['{'] l
  let (body, l) ← takeWhile1 (fun c => c ≠ '}') l
  let l ← lit ['}'] l
  pure ((name, body), l)

/-- Attempt the full entity regex at the head of the input; the `Bool` is the
audit flag. -/
def tryEntity (l : List Char) : Option ((Bool × List Char × List Char) × List Char) :=
  match (do
      let l₁ ← lit "@EnableAudit".toList l
      let (_, l₂) ← takeWhile1 isSpaceChar l₁
      tryEntityCore l₂) with
  | some ((name, body), rest) => some ((true, name, body), rest)
  | none =>
    match tryEntityCore l with
    | some ((name, body), rest) => some ((false, name, body), rest)
    | none => none

/-! ## Field-line parsing (the body of the entity loop) -/

/-- Attempt `^(\w+)\s+([\w<>]+)(.*)` on a single (newline-free) line,
returning the captures `(fieldName, fieldType, restOfLine)`. -/
def tryFieldMatch (line : List Char) : Option (List Char × List Char × List Char) := do
  let (name, l) ← takeWhile1 isWordChar line
  let (_, l) ← takeWhile1 isSpaceChar l
  let (ty, rest) ← takeWhile1 isWordAngleChar l
  pure (name, ty, rest)

/-- Truthiness of `enums[k]` (the test `!!enums[fieldType]`), prototype
chain included.  An own property is an enum record — an object, truthy.  On
a miss, the default prototype contributes the truthy `Object.prototype`
members; after `enums["__proto__"] = r`, the chain is
`enums → r → Object.prototype`, so `r`'s own properties `name` (a string,
truthy when non-empty) and `values` (an array, always truthy) are also
found. -/
def enumTruthy (enums : JsObject Enum) (k : List Char) : Bool :=
  enums.own.any (fun p => p.1 = k) ||
    match enums.proto with
    | none => k ∈ OBJECT_PROTOTYPE_KEYS
    | some r =>
      (k = "name".toList && r.name ≠ []) || k = "values".toList
        || k ∈ OBJECT_PROTOTYPE_KEYS

/-- Build the field record for one matched field line, using the fully
populated enum dictionary for the `fieldTypeIsEnum` test
`!!enums[fieldType]`. -/
def buildField (enums : JsObject Enum) (name ty rest : List Char) : Field :=
  let (validations, comment) :=
    match indexOfSlashSlash rest with
    | some k => (trim (rest.take k), some (trim (rest.drop (k + 2))))
    | none => (rest, none)
  { fieldName := name
    fieldType := ty
    fieldTypeIsEnum := enumTruthy enums ty
    fieldValidateRules := splitWsTokens validations
    comment := comment }

/-- The filtered, trimmed field lines of an entity body:
`fieldsContent.split('\n').map(l => l.trim()).filter(line => line && !line.startsWith('//'))`. -/
def fieldLinesOf (body : List Char) : List (List Char) :=
  ((splitOnChar '\n' body).map trim).filter
    (fun line => line ≠ [] && !startsWithSlashSlash line)

/-- Parse a list of prepared field lines; lines that do not match the field
grammar are silently dropped. -/
def parseFieldLines (enums : JsObject Enum) (lines : List (List Char)) :
    List Field :=
  lines.filterMap (fun line =>
    (tryFieldMatch line).map (fun (name, ty, rest) => buildField enums name ty rest))

/-- Build the entity record for one entity match (field parsing followed by
audit-field injection when annotated). -/
def mkEntity (enums : JsObject Enum) (audited : Bool)
    (name body : List Char) : Entity :=
  let fields := parseFieldLines enums (fieldLinesOf body)
  { name := name, fields := if audited then fields ++ AUDIT_FIELDS else fields }

/-! ## Relationship matcher:
`relationship\s+(OneToOne|ManyToOne|OneToMany|ManyToMany)\s*\{\s*(\w+)(?:\((\w+)\))?\s+to\s+(\w+)(?:\((\w+)\))?\s*\}` -/

/-- The four accepted cardinality literals, in the alternation order of the
source regex.  No literal is a prefix of another, so at most one can match at
a given position and alternation backtracking is vacuous. -/
def CARDINALITIES : List (List Char) :=
  ["OneToOne".toList, "ManyToOne".toList, "OneToMany".toList, "ManyToMany".toList]

/-- Match the cardinality alternation at the head of the input. -/
def tryCardinality (l : List Char) : Option (List Char × List Char) :=
  match lit "OneToOne".toList l with
  | some rest => some ("OneToOne".toList, rest)
  | none =>
    match lit "ManyToOne".toList l with
    | some rest => some ("ManyToOne".toList, rest)
    | none =>
      match lit "OneToMany".toList l with
      | some rest => some ("OneToMany".toList, rest)
      | none =>
        match lit "ManyToMany".toList l with
        | some rest => some ("ManyToMany".toList, rest)
        | none => none

/-- Match the optional role-field group `(?:\((\w+)\))?`.  When the next
character is `(` but the group cannot complete, the regex falls back to
skipping the group, which then fails on the following `\s`-class atom because
`(` is not whitespace — so a present-but-malformed group fails the position,
as here. -/
def tryOptField (l : List Char) : Option (Option (List Char) × List Char) :=
  match lit ['('] l with
  | none => some (none, l)
  | some l₁ =>
    match takeWhile1 isWordChar l₁ with
    | none => none
    | some (w, l₂) =>
      match lit [')'] l₂ with
      | none => none
      | some l₃ => some (some w, l₃)

/-- Attempt the relationship regex at the head of the input. -/
def tryRel (l : List Char) : Option (Rel × List Char) := do
  let l ← lit "relationship".toList l
  let (_, l) ← takeWhile1 isSpaceChar l
  let (card, l) ← tryCardinality l
  let (_, l) := takeWhileP isSpaceChar l
  let l ← lit ['{'] l
  let (_, l) := takeWhileP isSpaceChar l
  let (fromName, l) ← takeWhile1 isWordChar l
  let (fromField, l) ← tryOptField l
  let (_, l) ← takeWhile1 isSpaceChar l
  let l ← lit "to".toList l
  let (_, l) ← takeWhile1 isSpaceChar l
  let (toName, l) ← takeWhile1 isWordChar l
  let (toField, l) ← tryOptField l
  let (_, l) := takeWhileP isSpaceChar l
  let l ← lit ['}'] l
  pure ({ type := card, frm := { name := fromName, fieldName := fromField },
          toE := { name := toName, fieldName := toField } }, l)

/-! ## Scanners: the `while ((m = re.exec(text)) !== null)` loops

At each position the pattern is attempted; on success the match (with its
start index) is recorded and scanning resumes at the end of the match
(`lastIndex`); on failure scanning advances one character.  The recursion is
fuelled; every step consumes at least one character, so fuel equal to the
input length is always sufficient. -/

/-- Scan for enum matches, returning `(index, name, body)` triples. -/
def scanEnums : Nat → Nat → List Char → List (Nat × List Char × List Char)
  | 0, _, _ => []
  | _ + 1, _, [] => []
  | fuel + 1, i, c :: rest =>
    match tryEnum (c :: rest) with
    | some ((name, body), rest') =>
      (i, name, body) ::
        scanEnums fuel (i + ((c :: rest).length - rest'.length)) rest'
    | none => scanEnums fuel (i + 1) rest

/-- Scan for entity matches, returning `(index, audited, name, body)`. -/
def scanEntities : Nat → Nat → List Char → List (Nat × Bool × List Char × List Char)
  | 0, _, _ => []
  | _ + 1, _, [] => []
  | fuel + 1, i, c :: rest =>
    match tryEntity (c :: rest) with
    | some ((aud, name, body), rest') =>
      (i, aud, name, body) ::
        scanEntities fuel (i + ((c :: rest).length - rest'.length)) rest'
    | none => scanEntities fuel (i + 1) rest

/-- Scan for relationship matches, returning `(index, record)` pairs. -/
def scanRels : Nat → Nat → List Char → List (Nat × Rel)
  | 0, _, _ => []
  | _ + 1, _, [] => []
  | fuel + 1, i, c :: rest =>
    match tryRel (c :: rest) with
    | some (r, rest') =>
      (i, r) :: scanRels fuel (i + ((c :: rest).length - rest'.length)) rest'
    | none => scanRels fuel (i + 1) rest

/-! ## The pipeline `parseJdl` -/

/-- Enum matches of the cleaned text that survive the `isCommented` check. -/
def keptEnumMatches (clean : List Char) : List (Nat × List Char × List Char) :=
  (scanEnums clean.length 0 clean).filter (fun m => !isCommented clean m.1)

/-- Entity matches of the cleaned text that survive the `isCommented` check. -/
def keptEntityMatches (clean : List Char) : List (Nat × Bool × List Char × List Char) :=
  (scanEntities clean.length 0 clean).filter (fun m => !isCommented clean m.1)

/-- Relationship matches of the cleaned text that survive the `isCommented`
check. -/
def keptRelMatches (clean : List Char) : List (Nat × Rel) :=
  (scanRels clean.length 0 clean).filter (fun m => !isCommented clean m.1)

/-- Build a last-writer-wins map from a list of records keyed by `key`. -/
def buildLWW (key : α → List Char) (recs : List α) : List (List Char × α) :=
  recs.foldl (fun acc r => insertLWW acc (key r) r) []

/-- The enum records of the kept matches, in match order. -/
def enumRecordsOf (clean : List Char) : List Enum :=
  (keptEnumMatches clean).map (fun m => { name := m.2.1, values := mkEnumValues m.2.2 })

/-- The enum dictionary after pass 1 (fully populated before any entity is
parsed). -/
def enumMapOf (clean : List Char) : JsObject Enum :=
  buildJsObject Enum.name (enumRecordsOf clean)

/-- The entity records of the kept matches, in match order (before the
dictionary is built). -/
def entityRecordsOf (clean : List Char) (enums : JsObject Enum) :
    List Entity :=
  (keptEntityMatches clean).map (fun m => mkEntity enums m.2.1 m.2.2.1 m.2.2.2)

/-- The entity dictionary after pass 2. -/
def entityMapOf (clean : List Char) (enums : JsObject Enum) :
    JsObject Entity :=
  buildJsObject Entity.name (entityRecordsOf clean enums)

/-- The body of `parseJdl` on already-cleaned text (the three extraction passes and the
final `Object.values` projections). -/
def assembleFromClean (clean : List Char) : JdlModel :=
  let enums := enumMapOf clean
  { entities := valuesOf (entityMapOf clean enums).own
    enums := valuesOf enums.own
    relationships := (keptRelMatches clean).map (·.2) }

/-- The `parseJdl` function of the source. -/
def parseJdl (jdlContent : List Char) : JdlModel :=
  assembleFromClean (stripBlockComments jdlContent)

/-! ## Type mapper `getTsType` -/

/-- The keys of the fixed type-mapping table. -/
def TS_TYPE_KEYS : List (List Char) :=
  ["String".toList, "Integer".toList, "Long".toList, "BigDecimal".toList,
   "Float".toList, "Double".toList, "Boolean".toList, "LocalDate".toList,
   "Instant".toList, "ZonedDateTime".toList, "TextBlob".toList, "UUID".toList]

/-- The mapper `getTsType`, restricted to its string-valued behaviour: the
fixed mapping table with identity fallback.  `typeMappings` is an object
literal, so a miss on its twelve own keys can still hit an inherited
`Object.prototype` member; `getTsTypeJs` below carries the full semantics,
and this restriction agrees with it on every input that is not an
`Object.prototype` member name (`getTsTypeJs_str_of_not_proto`). -/
def getTsType (jdlType : List Char) : List Char :=
  if jdlType = "String".toList then "string".toList
  else if jdlType = "Integer".toList then "number".toList
  else if jdlType = "Long".toList then "number".toList
  else if jdlType = "BigDecimal".toList then "number".toList
  else if jdlType = "Float".toList then "number".toList
  else if jdlType = "Double".toList then "number".toList
  else if jdlType = "Boolean".toList then "boolean".toList
  else if jdlType = "LocalDate".toList then "dayjs.Dayjs".toList
  else if jdlType = "Instant".toList then "dayjs.Dayjs".toList
  else if jdlType = "ZonedDateTime".toList then "dayjs.Dayjs".toList
  else if jdlType = "TextBlob".toList then "string".toList
  else if jdlType = "UUID".toList then "string".toList
  else jdlType

/-- The value of `typeMappings[jdlType] || jdlType`: either a string, or —
when the lookup missed the table's own keys but hit the prototype chain —
the inherited `Object.prototype` member of that name (a function, or the
prototype object for `__proto__`), which is not a string at all. -/
inductive TsType where
  | str : List Char → TsType
  | protoMember : List Char → TsType
  deriving Repr, DecidableEq

/-- Full JS semantics of `getTsType`: `typeMappings` is an object literal, so
`typeMappings[jdlType]` first checks the twelve own keys, then the inherited
`Object.prototype` members — all truthy, so `||` returns the member itself —
and only an outright miss makes `||` fall back to the input. -/
def getTsTypeJs (jdlType : List Char) : TsType :=
  if jdlType = "String".toList then TsType.str "string".toList
  else if jdlType = "Integer".toList then TsType.str "number".toList
  else if jdlType = "Long".toList then TsType.str "number".toList
  else if jdlType = "BigDecimal".toList then TsType.str "number".toList
  else if jdlType = "Float".toList then TsType.str "number".toList
  else if jdlType = "Double".toList then TsType.str "number".toList
  else if jdlType = "Boolean".toList then TsType.str "boolean".toList
  else if jdlType = "LocalDate".toList then TsType.str "dayjs.Dayjs".toList
  else if jdlType = "Instant".toList then TsType.str "dayjs.Dayjs".toList
  else if jdlType = "ZonedDateTime".toList then TsType.str "dayjs.Dayjs".toList
  else if jdlType = "TextBlob".toList then TsType.str "string".toList
  else if jdlType = "UUID".toList then TsType.str "string".toList
  else if jdlType ∈ OBJECT_PROTOTYPE_KEYS then TsType.protoMember jdlType
  else TsType.str jdlType

/-! ## The model assembler (relationship part of `generateEntityFiles`)

The helpers `toPascalCase = _.upperFirst(_.camelCase(str))` and
`String.prototype.toLowerCase` come from outside the repository (lodash and
the JS standard library); they are modelled here for ASCII identifier inputs
(`\w+`, the only strings they are applied to): camel-casing splits a string
into words at underscores, lower-to-upper case boundaries, letter/digit
boundaries and before the last upper-case letter of an upper-case run
followed by lower case, lower-cases every word, capitalises all but the
first, and concatenates. -/

def isUpperChar (c : Char) : Bool := 'A' ≤ c && c ≤ 'Z'

def isLowerChar (c : Char) : Bool := 'a' ≤ c && c ≤ 'z'

def isDigitChar (c : Char) : Bool := '0' ≤ c && c ≤ '9'

/-- ASCII lower-casing of one character. -/
def toLowerChar (c : Char) : Char :=
  if isUpperChar c then Char.ofNat (c.toNat + 32) else c

/-- ASCII upper-casing of one character. -/
def toUpperChar (c : Char) : Char :=
  if isLowerChar c then Char.ofNat (c.toNat - 32) else c

/-- JS `String.prototype.toLowerCase` for ASCII input. -/
def toLowerList (l : List Char) : List Char :=
  l.map toLowerChar

/-- Lodash `_.upperFirst` for ASCII input. -/
def upperFirst : List Char → List Char
  | [] => []
  | c :: rest => toUpperChar c :: rest

/-- One camel-case word starting at the head of a non-empty alphanumeric
input: an upper-case run not followed by lower case, an optionally
capitalised lower-case run, or a digit run. -/
def takeCamelWord (c : Char) (rest : List Char) : List Char × List Char :=
  if isDigitChar c then
    (c :: rest.takeWhile isDigitChar, rest.dropWhile isDigitChar)
  else if isLowerChar c then
    (c :: rest.takeWhile isLowerChar, rest.dropWhile isLowerChar)
  else
    let u := rest.takeWhile isUpperChar
    let r := rest.dropWhile isUpperChar
    match u.getLast? with
    | none => (c :: r.takeWhile isLowerChar, r.dropWhile isLowerChar)
    | some last =>
      if (r.head?.map isLowerChar).getD false then (c :: u.dropLast, last :: r)
      else (c :: u, r)

/-- Split an ASCII identifier into camel-case words (the lodash `words`
behaviour on `\w+` strings; non-alphanumeric characters, here only `_`,
separate words and are dropped). -/
def splitWordsAux : Nat → List Char → List (List Char)
  | 0, _ => []
  | _ + 1, [] => []
  | fuel + 1, c :: rest =>
    if isUpperChar c || isLowerChar c || isDigitChar c then
      let (w, r) := takeCamelWord c rest
      w :: splitWordsAux fuel r
    else
      splitWordsAux fuel rest

def splitWords (l : List Char) : List (List Char) :=
  splitWordsAux (l.length + 1) l

/-- Lodash `_.camelCase` for ASCII identifier input. -/
def camelCase (l : List Char) : List Char :=
  match splitWords l with
  | [] => []
  | w :: ws => toLowerList w ++ ws.flatMap (fun w' => upperFirst (toLowerList w'))

/-- The helper `helpers.toPascalCase = _.upperFirst(_.camelCase(str))`. -/
def toPascalCase (l : List Char) : List Char :=
  upperFirst (camelCase l)

/-- One entry of the annotated relationship list attached to an entity's
render context. -/
structure RelCtx where
  type : List Char
  frm : RelEnd
  toE : RelEnd
  otherEntityName : List Char
  otherEntityNamePascalCase : List Char
  otherEntityNamePlural : List Char
  deriving Repr, DecidableEq

/-- The annotation applied to each relationship kept for an entity:
`{...rel, otherEntityName, otherEntityNamePascalCase, otherEntityNamePlural}`. -/
def annotateRel (r : Rel) : RelCtx :=
  { type := r.type, frm := r.frm, toE := r.toE
    otherEntityName := r.toE.name
    otherEntityNamePascalCase := toPascalCase r.toE.name
    otherEntityNamePlural := toLowerList r.toE.name ++ ['s'] }

/-- The relationship list of an entity's render context:
`allRelationships.filter(rel => rel.from.name === entity.name).map(...)`. -/
def entityRelationships (entity : Entity) (allRelationships : List Rel) :
    List RelCtx :=
  (allRelationships.filter (fun r => r.frm.name = entity.name)).map annotateRel

/-- A document whose only entity declaration is immediately preceded by a
line-commented audit annotation alone on the previous line:
`// @EnableAudit\nentity <name> {<body>}`. -/
def commentedAuditDoc (name body : List Char) : List Char :=
  "// ".toList
    ++ ("@EnableAudit\n".toList
      ++ ("entity ".toList ++ (name ++ (" \x7b".toList ++ (body ++ "\x7d".toList)))))

/-! ## Lemmas about character classes -/

theorem isSpaceChar_eq_false_of_word {c : Char} (h : isWordChar c = true) :
    isSpaceChar c = false := by
  by_cases h1 : c = ' '
  · exact absurd (h1 ▸ h) (by decide)
  by_cases h2 : c = '\t'
  · exact absurd (h2 ▸ h) (by decide)
  by_cases h3 : c = '\n'
  · exact absurd (h3 ▸ h) (by decide)
  by_cases h4 : c = '\r'
  · exact absurd (h4 ▸ h) (by decide)
  by_cases h5 : c = '\x0b'
  · exact absurd (h5 ▸ h) (by decide)
  by_cases h6 : c = '\x0c'
  · exact absurd (h6 ▸ h) (by decide)
  simp [isSpaceChar, h1, h2, h3, h4, h5, h6]

/-! ## Lemmas about the matching primitives -/

theorem takeWhile_append_all {p : Char → Bool} {a b : List Char}
    (h : ∀ x ∈ a, p x = true) :
    (a ++ b).takeWhile p = a ++ b.takeWhile p := by
  induction a with
  | nil => simp
  | cons c rest ih =>
    simp only [List.cons_append, List.takeWhile_cons]
    rw [h c (by simp), ih (fun x hx => h x (by simp [hx]))]
    simp

theorem dropWhile_append_all {p : Char → Bool} {a b : List Char}
    (h : ∀ x ∈ a, p x = true) :
    (a ++ b).dropWhile p = b.dropWhile p := by
  induction a with
  | nil => simp
  | cons c rest ih =>
    simp only [List.cons_append, List.dropWhile_cons]
    rw [h c (by simp)]
    exact ih (fun x hx => h x (by simp [hx]))

theorem dropWhile_eq_self_of_takeWhile_nil {p : Char → Bool} {b : List Char}
    (hb : b.takeWhile p = []) : b.dropWhile p = b := by
  cases b with
  | nil => simp
  | cons c rest =>
    simp only [List.takeWhile_cons] at hb
    have hc : p c = false := by
      cases hpc : p c with
      | false => rfl
      | true => simp [hpc] at hb
    simp [List.dropWhile_cons, hc]

theorem takeWhile1_append {p : Char → Bool} {a b : List Char}
    (ha : a ≠ []) (hall : ∀ x ∈ a, p x = true) (hb : b.takeWhile p = []) :
    takeWhile1 p (a ++ b) = some (a, b) := by
  have ht : (a ++ b).takeWhile p = a := by
    rw [takeWhile_append_all hall, hb, List.append_nil]
  have hd : (a ++ b).dropWhile p = b := by
    rw [dropWhile_append_all hall, dropWhile_eq_self_of_takeWhile_nil hb]
  simp [takeWhile1, ht, hd, ha]

theorem takeWhile1_eq_some {p : Char → Bool} {l t r : List Char}
    (h : takeWhile1 p l = some (t, r)) : l = t ++ r ∧ t ≠ [] := by
  unfold takeWhile1 at h
  split at h
  · exact absurd h (by simp)
  · rename_i hne
    obtain ⟨rfl, rfl⟩ : l.takeWhile p = t ∧ l.dropWhile p = r := by
      simpa using h
    exact ⟨(List.takeWhile_append_dropWhile _ _).symm, hne⟩

theorem takeWhileP_eq {p : Char → Bool} {l : List Char} :
    (takeWhileP p l).1 ++ (takeWhileP p l).2 = l := by
  unfold takeWhileP
  exact List.takeWhile_append_dropWhile _ _

theorem lit_self_append {p r : List Char} : lit p (p ++ r) = some r := by
  induction p with
  | nil => simp [lit]
  | cons c rest ih => simp [lit, ih]

theorem lit_eq_some {p l r : List Char} (h : lit p l = some r) : l = p ++ r := by
  induction p generalizing l with
  | nil => simpa [lit] using h
  | cons c rest ih =>
    match l with
    | [] => exact absurd h (by simp [lit])
    | d :: ds =>
      unfold lit at h
      split at h
      · rename_i hd
        subst hd
        simpa using ih h
      · exact absurd h (by simp)

/-! ## Consumption lemmas: every successful match is non-empty -/

theorem tryEntityCore_length {l : List Char} {x : List Char × List Char}
    {rest : List Char} (h : tryEntityCore l = some (x, rest)) :
    rest.length < l.length := by
  simp only [tryEntityCore, bind, Option.bind_eq_some, pure, Option.some.injEq] at h
  obtain ⟨l₁, h₁, h⟩ := h
  obtain ⟨⟨s₁, l₂⟩, h₂, h⟩ := h
  obtain ⟨⟨nm, l₃⟩, h₃, h⟩ := h
  obtain ⟨l₅, h₅, h⟩ := h
  obtain ⟨⟨body, l₆⟩, h₆, h⟩ := h
  obtain ⟨l₇, h₇, h⟩ := h
  dsimp only at h₃ h₅ h₆ h₇ h
  obtain ⟨-, rfl⟩ : ((nm, body) = x) ∧ l₇ = rest := by
    exact ⟨congrArg Prod.fst h, congrArg Prod.snd h⟩
  have e₁ := lit_eq_some h₁
  have e₂ := takeWhile1_eq_some h₂
  have e₃ := takeWhile1_eq_some h₃
  have e₄ : (takeWhileP isSpaceChar l₃).1 ++ (takeWhileP isSpaceChar l₃).2 = l₃ :=
    takeWhileP_eq
  have e₅ := lit_eq_some h₅
  have e₆ := takeWhile1_eq_some h₆
  have e₇ := lit_eq_some h₇
  have len₄ :
      (takeWhileP isSpaceChar l₃).1.length + (takeWhileP isSpaceChar l₃).2.length
        = l₃.length := by
    rw [← List.length_append, e₄]
  subst e₁
  have e₂' := e₂.1
  subst e₂'
  have hlen₅ : l₅.length = body.length + l₆.length := by rw [e₆.1]; simp
  have hlen₆ : l₆.length = 1 + l₇.length := by rw [e₇]; simp; omega
  have hlen₃ : l₃.length = (takeWhileP isSpaceChar l₃).1.length + 1 + l₅.length := by
    rw [← len₄, e₅]; simp; omega
  have hlen₂ : l₂.length = nm.length + l₃.length := by rw [e₃.1]; simp
  simp only [List.length_append]
  omega

/-! ## Lemmas about the block-comment stripper -/

theorem hasOpen_cons₂ {c d : Char} {rest : List Char} :
    hasOpen (c :: d :: rest) = ((c = '/' && d = '*') || hasOpen (d :: rest)) := rfl

theorem hasClose_cons₂ {c d : Char} {rest : List Char} :
    hasClose (c :: d :: rest) = ((c = '*' && d = '/') || hasClose (d :: rest)) := rfl

theorem findClose_cons₂ {c d : Char} {rest : List Char} :
    findClose (c :: d :: rest)
      = if c = '*' ∧ d = '/' then some rest else findClose (d :: rest) := rfl

theorem stripAux_cons₂ {fuel : Nat} {c d : Char} {rest : List Char} :
    stripAux (fuel + 1) (c :: d :: rest)
      = if c = '/' ∧ d = '*' then
          match findClose rest with
          | none => c :: d :: rest
          | some rest' => stripAux fuel rest'
        else c :: stripAux fuel (d :: rest) := rfl

theorem findClose_length {l r : List Char} (h : findClose l = some r) :
    r.length + 2 ≤ l.length := by
  induction l with
  | nil => simp [findClose] at h
  | cons c rest ih =>
    cases rest with
    | nil => simp [findClose] at h
    | cons d rest' =>
      rw [findClose_cons₂] at h
      split at h
      · obtain rfl : rest' = r := by simpa using h
        simp
      · have := ih h
        simp at this ⊢
        omega

theorem findClose_append {b c : List Char} (hb : hasClose b = false) :
    findClose (b ++ '*' :: '/' :: c) = some c := by
  induction b with
  | nil => simp [findClose_cons₂]
  | cons x rest ih =>
    cases rest with
    | nil =>
      simp only [List.cons_append, List.nil_append]
      rw [findClose_cons₂, if_neg (by simp), findClose_cons₂, if_pos ⟨rfl, rfl⟩]
    | cons y rest' =>
      rw [hasClose_cons₂, Bool.or_eq_false_iff] at hb
      simp only [List.cons_append]
      rw [findClose_cons₂, if_neg (by simpa using hb.1)]
      exact ih hb.2

theorem hasOpen_tail {x : Char} {l : List Char} (h : hasOpen (x :: l) = false) :
    hasOpen l = false := by
  cases l with
  | nil => rfl
  | cons y rest =>
    rw [hasOpen_cons₂, Bool.or_eq_false_iff] at h
    exact h.2

theorem hasOpen_append_left {a c : List Char} (h : hasOpen (a ++ c) = false) :
    hasOpen a = false := by
  induction a with
  | nil => rfl
  | cons x a' ih =>
    cases a' with
    | nil => rfl
    | cons y a'' =>
      simp only [List.cons_append] at h
      rw [hasOpen_cons₂, Bool.or_eq_false_iff] at h
      have h2 := ih (by simpa using h.2)
      rw [hasOpen_cons₂, Bool.or_eq_false_iff]
      exact ⟨h.1, h2⟩

theorem hasOpen_append_right {a c : List Char} (h : hasOpen (a ++ c) = false) :
    hasOpen c = false := by
  induction a with
  | nil => simpa using h
  | cons x a' ih =>
    exact ih (hasOpen_tail (by simpa using h))

theorem stripAux_congr : ∀ {f₁ f₂ : Nat} {l : List Char},
    l.length ≤ f₁ → l.length ≤ f₂ → stripAux f₁ l = stripAux f₂ l := by
  intro f₁
  induction f₁ with
  | zero =>
    intro f₂ l h₁ _
    obtain rfl : l = [] := List.eq_nil_of_length_eq_zero (Nat.le_zero.mp h₁)
    cases f₂ <;> simp [stripAux]
  | succ n ih =>
    intro f₂ l h₁ h₂
    match l with
    | [] => cases f₂ <;> simp [stripAux]
    | [c] =>
      obtain ⟨m, rfl⟩ : ∃ m, f₂ = m + 1 := by
        cases f₂ with
        | zero => simp at h₂
        | succ m => exact ⟨m, rfl⟩
      simp [stripAux]
    | c :: d :: rest =>
      obtain ⟨m, rfl⟩ : ∃ m, f₂ = m + 1 := by
        cases f₂ with
        | zero => simp at h₂
        | succ m => exact ⟨m, rfl⟩
      simp only [List.length_cons] at h₁ h₂
      rw [stripAux_cons₂, stripAux_cons₂]
      split
      · cases hfc : findClose rest with
        | none => rfl
        | some rest' =>
          have := findClose_length hfc
          exact @ih m rest' (by omega) (by omega)
      · rw [@ih m (d :: rest) (by simp; omega) (by simp; omega)]

theorem stripAux_no_open : ∀ {fuel : Nat} {l : List Char},
    hasOpen l = false → l.length ≤ fuel → stripAux fuel l = l := by
  intro fuel
  induction fuel with
  | zero => intro l _ _; simp [stripAux]
  | succ n ih =>
    intro l hop hlen
    match l with
    | [] => simp [stripAux]
    | [c] => simp [stripAux]
    | c :: d :: rest =>
      rw [hasOpen_cons₂, Bool.or_eq_false_iff] at hop
      rw [stripAux_cons₂, if_neg (by simpa using hop.1)]
      simp only [List.length_cons] at hlen
      rw [ih hop.2 (by simp; omega)]

theorem stripBlockComments_no_open {l : List Char} (h : hasOpen l = false) :
    stripBlockComments l = l :=
  stripAux_no_open h le_rfl

theorem stripAux_splice : ∀ {fuel : Nat} (a : List Char) {b c : List Char},
    hasOpen a = false → hasClose b = false →
    (a ++ '/' :: '*' :: (b ++ '*' :: '/' :: c)).length ≤ fuel →
    stripAux fuel (a ++ '/' :: '*' :: (b ++ '*' :: '/' :: c))
      = a ++ stripAux c.length c := by
  intro fuel
  induction fuel with
  | zero =>
    intro a b c _ _ hlen
    simp [List.length_append] at hlen
  | succ n ih =>
    intro a b c hoa hcb hlen
    match a with
    | [] =>
      simp only [List.nil_append] at hlen ⊢
      rw [stripAux_cons₂, if_pos ⟨rfl, rfl⟩, findClose_append hcb]
      simp only [List.length_append, List.length_cons] at hlen
      exact @stripAux_congr n c.length c (by omega) le_rfl
    | [x] =>
      simp only [List.cons_append, List.nil_append] at hlen ⊢
      rw [stripAux_cons₂, if_neg (by simp)]
      simp only [List.length_cons, List.length_append] at hlen
      have := ih [] (b := b) (c := c) rfl hcb
        (by simp only [List.nil_append, List.length_cons, List.length_append]; omega)
      simp only [List.nil_append] at this
      rw [this]
    | x :: y :: a'' =>
      rw [show (x :: y :: a'') ++ '/' :: '*' :: (b ++ '*' :: '/' :: c)
            = x :: ((y :: a'') ++ '/' :: '*' :: (b ++ '*' :: '/' :: c)) from rfl] at hlen ⊢
      rw [hasOpen_cons₂, Bool.or_eq_false_iff] at hoa
      rw [show ((y :: a'') ++ '/' :: '*' :: (b ++ '*' :: '/' :: c))
            = y :: (a'' ++ '/' :: '*' :: (b ++ '*' :: '/' :: c)) from rfl] at hlen ⊢
      rw [stripAux_cons₂, if_neg (by simpa using hoa.1)]
      simp only [List.length_cons, List.length_append] at hlen
      have := ih (y :: a'') (b := b) (c := c) hoa.2 hcb
        (by simp only [List.cons_append, List.length_cons, List.length_append]; omega)
      simp only [List.cons_append] at this
      rw [this]
      simp

theorem stripBlockComments_splice {a b c : List Char}
    (hoa : hasOpen a = false) (hcb : hasClose b = false) :
    stripBlockComments (a ++ '/' :: '*' :: (b ++ '*' :: '/' :: c))
      = a ++ stripBlockComments c :=
  stripAux_splice a hoa hcb le_rfl

/-! ## Lemmas about the last-writer-wins maps -/

section LWW

variable {α : Type} {key : α → List Char}

theorem valuesOf_nil : valuesOf ([] : List (List Char × α)) = [] := rfl

theorem valuesOf_cons {p : List Char × α} {m : List (List Char × α)} :
    valuesOf (p :: m) = p.2 :: valuesOf m := rfl

theorem getLWW_cons {p : List Char × α} {rest : List (List Char × α)}
    {k : List Char} :
    getLWW (p :: rest) k = if p.1 = k then some p.2 else getLWW rest k := rfl

theorem insertLWW_cons {p : List Char × α} {rest : List (List Char × α)}
    {k : List Char} {v : α} :
    insertLWW (p :: rest) k v
      = if p.1 = k then (k, v) :: rest else p :: insertLWW rest k v := rfl

theorem getLWW_insertLWW {m : List (List Char × α)} {k k' : List Char} {v : α} :
    getLWW (insertLWW m k v) k' = if k = k' then some v else getLWW m k' := by
  induction m with
  | nil =>
    by_cases h : k = k' <;> simp [insertLWW, getLWW, h]
  | cons p rest ih =>
    by_cases hp : p.1 = k
    · rw [insertLWW_cons, if_pos hp]
      by_cases h : k = k'
      · rw [getLWW_cons, if_pos h, if_pos h]
      · rw [getLWW_cons, if_neg h, if_neg h, getLWW_cons,
          if_neg (fun he => h (hp ▸ he))]
    · rw [insertLWW_cons, if_neg hp]
      by_cases h : p.1 = k'
      · have hkk : ¬ k = k' := fun he => hp (h.trans he.symm)
        rw [getLWW_cons, if_pos h, if_neg hkk, getLWW_cons, if_pos h]
      · rw [getLWW_cons, if_neg h, ih]
        by_cases hk : k = k'
        · rw [if_pos hk, if_pos hk]
        · rw [if_neg hk, if_neg hk, getLWW_cons, if_neg h]

theorem mem_insertLWW {m : List (List Char × α)} {k : List Char} {v : α}
    {p : List Char × α} (h : p ∈ insertLWW m k v) : p = (k, v) ∨ p ∈ m := by
  induction m with
  | nil => simpa [insertLWW] using h
  | cons q rest ih =>
    unfold insertLWW at h
    by_cases hq : q.1 = k
    · simp only [if_pos hq, List.mem_cons] at h
      rcases h with h | h
      · exact Or.inl h
      · exact Or.inr (List.mem_cons_of_mem _ h)
    · simp only [if_neg hq, List.mem_cons] at h
      rcases h with h | h
      · exact Or.inr (by simp [h])
      · rcases ih h with h' | h'
        · exact Or.inl h'
        · exact Or.inr (List.mem_cons_of_mem _ h')

theorem keys_insertLWW {m : List (List Char × α)} {k : List Char} {v : α} :
    (insertLWW m k v).map Prod.fst
      = if k ∈ m.map Prod.fst then m.map Prod.fst else m.map Prod.fst ++ [k] := by
  induction m with
  | nil => simp [insertLWW]
  | cons p rest ih =>
    by_cases hp : p.1 = k
    · rw [insertLWW_cons, if_pos hp]
      rw [if_pos (by
        simp only [List.map_cons, List.mem_cons]
        exact Or.inl hp.symm)]
      simp only [List.map_cons]
      rw [hp]
    · rw [insertLWW_cons, if_neg hp]
      simp only [List.map_cons, ih]
      by_cases hk : k ∈ rest.map Prod.fst
      · rw [if_pos hk, if_pos (by
          simp only [List.map_cons, List.mem_cons]
          exact Or.inr hk)]
      · rw [if_neg hk, if_neg (by
          simp only [List.map_cons, List.mem_cons]
          rintro (h | h)
          · exact hp h.symm
          · exact hk h)]
        simp

theorem nodupKeys_insertLWW {m : List (List Char × α)} {k : List Char} {v : α}
    (h : (m.map Prod.fst).Nodup) : ((insertLWW m k v).map Prod.fst).Nodup := by
  rw [keys_insertLWW]
  by_cases hk : k ∈ m.map Prod.fst
  · rwa [if_pos hk]
  · rw [if_neg hk]
    refine List.Nodup.append h (List.nodup_singleton k) ?_
    intro a ha hb
    simp only [List.mem_singleton] at hb
    exact hk (hb ▸ ha)

theorem buildLWW_invariant (recs : List α) :
    (∀ p ∈ buildLWW key recs, key p.2 = p.1) ∧
      ((buildLWW key recs).map Prod.fst).Nodup := by
  unfold buildLWW
  suffices h : ∀ m : List (List Char × α), (∀ p ∈ m, key p.2 = p.1) →
      (m.map Prod.fst).Nodup →
      (∀ p ∈ recs.foldl (fun acc r => insertLWW acc (key r) r) m, key p.2 = p.1) ∧
        ((recs.foldl (fun acc r => insertLWW acc (key r) r) m).map Prod.fst).Nodup by
    exact h [] (by simp) (by simp)
  induction recs with
  | nil => intro m h1 h2; exact ⟨h1, h2⟩
  | cons r rs ih =>
    intro m h1 h2
    refine ih _ ?_ (nodupKeys_insertLWW h2)
    intro p hp
    rcases mem_insertLWW hp with h | h
    · simp [h]
    · exact h1 p h

theorem getLWW_foldl_insert (recs : List α) (n : List Char) :
    ∀ m : List (List Char × α),
      getLWW (recs.foldl (fun acc r => insertLWW acc (key r) r) m) n
        = ((recs.filter (fun r => key r = n)).getLast?).orElse
            (fun _ => getLWW m n) := by
  induction recs with
  | nil => intro m; simp
  | cons r rs ih =>
    intro m
    simp only [List.foldl_cons, List.filter_cons]
    by_cases hr : key r = n
    · rw [if_pos (by simpa using hr)]
      rw [ih]
      cases hlast : (rs.filter (fun r => key r = n)).getLast? with
      | none =>
        have : rs.filter (fun r => key r = n) = [] :=
          List.getLast?_eq_none_iff.mp hlast
        simp [this, Option.orElse, getLWW_insertLWW, hr]
      | some v =>
        have hne : rs.filter (fun r => key r = n) ≠ [] := by
          intro h
          rw [h] at hlast
          simp at hlast
        obtain ⟨x, l', hxl⟩ : ∃ x l', rs.filter (fun r => key r = n) = x :: l' := by
          cases h : rs.filter (fun r => key r = n) with
          | nil => exact absurd h hne
          | cons x l' => exact ⟨x, l', rfl⟩
        rw [hxl] at hlast ⊢
        rw [List.getLast?_cons_cons]
        simp [hlast, Option.orElse]
    · rw [if_neg (by simpa using hr)]
      rw [ih]
      cases hlast : (rs.filter (fun r => key r = n)).getLast? <;>
        simp [Option.orElse, getLWW_insertLWW, hr, hlast]

theorem getLWW_buildLWW (recs : List α) (n : List Char) :
    getLWW (buildLWW key recs) n = (recs.filter (fun r => key r = n)).getLast? := by
  unfold buildLWW
  rw [getLWW_foldl_insert]
  cases hlast : (recs.filter (fun r => key r = n)).getLast? <;>
    simp [Option.orElse, getLWW]

theorem valuesOf_filter_eq_getLWW {m : List (List Char × α)} {n : List Char}
    (hinv : ∀ p ∈ m, key p.2 = p.1) (hnd : (m.map Prod.fst).Nodup) :
    (valuesOf m).filter (fun r => key r = n) = (getLWW m n).toList := by
  induction m with
  | nil => simp [valuesOf_nil, getLWW]
  | cons p rest ih =>
    rw [valuesOf_cons, List.filter_cons]
    have hpkey : key p.2 = p.1 := hinv p (by simp)
    by_cases hp : p.1 = n
    · rw [if_pos (by simp [hpkey, hp])]
      have hnotin : n ∉ rest.map Prod.fst := by
        intro hn
        rw [List.map_cons] at hnd
        exact (List.nodup_cons.mp hnd).1 (hp ▸ hn)
      have hrest : (valuesOf rest).filter (fun r => key r = n) = [] := by
        apply List.filter_eq_nil_iff.mpr
        intro r hr hdec
        simp only [valuesOf, List.mem_map] at hr
        obtain ⟨q, hq, rfl⟩ := hr
        simp only [decide_eq_true_eq] at hdec
        exact hnotin ((hinv q (by simp [hq]) ▸ hdec) ▸
          List.mem_map_of_mem Prod.fst hq)
      rw [hrest, getLWW_cons, if_pos hp]
      rfl
    · rw [if_neg (by simp [hpkey, hp])]
      rw [ih (fun q hq => hinv q (by simp [hq])) (by
        rw [List.map_cons] at hnd
        exact (List.nodup_cons.mp hnd).2)]
      rw [getLWW_cons, if_neg hp]

theorem mem_valuesOf_insertLWW {m : List (List Char × α)} {k : List Char}
    {w v : α} (h : v ∈ valuesOf (insertLWW m k w)) : v = w ∨ v ∈ valuesOf m := by
  simp only [valuesOf, List.mem_map] at h
  obtain ⟨p, hp, rfl⟩ := h
  rcases mem_insertLWW hp with h' | h'
  · exact Or.inl (by simp [h'])
  · exact Or.inr (List.mem_map_of_mem _ h')

theorem mem_valuesOf_buildLWW {recs : List α} {v : α}
    (h : v ∈ valuesOf (buildLWW key recs)) : v ∈ recs := by
  unfold buildLWW at h
  suffices hgen : ∀ m : List (List Char × α),
      v ∈ valuesOf (recs.foldl (fun acc r => insertLWW acc (key r) r) m) →
      v ∈ recs ∨ v ∈ valuesOf m by
    rcases hgen [] h with h' | h'
    · exact h'
    · simp [valuesOf] at h'
  clear h
  induction recs with
  | nil => intro m h; exact Or.inr h
  | cons r rs ih =>
    intro m h
    rcases ih _ h with h' | h'
    · exact Or.inl (List.mem_cons_of_mem _ h')
    · rcases mem_valuesOf_insertLWW h' with h'' | h''
      · exact Or.inl (by simp [h''])
      · exact Or.inr h''

theorem any_key_mem {m : List (List Char × α)} {k : List Char}
    (hinv : ∀ p ∈ m, key p.2 = p.1) :
    (m.any (fun p => p.1 = k)) = true ↔ k ∈ (valuesOf m).map key := by
  rw [List.any_eq_true]
  constructor
  · rintro ⟨p, hp, hdec⟩
    simp only [decide_eq_true_eq] at hdec
    refine List.mem_map.mpr ⟨p.2, ?_, by rw [hinv p hp, hdec]⟩
    simp only [valuesOf]
    exact List.mem_map_of_mem Prod.snd hp
  · intro h
    obtain ⟨v, hv, rfl⟩ := List.mem_map.mp h
    simp only [valuesOf, List.mem_map] at hv
    obtain ⟨p, hp, rfl⟩ := hv
    exact ⟨p, hp, by simp [hinv p hp]⟩

theorem valuesOf_buildLWW_filter (key : α → List Char) (recs : List α)
    (n : List Char) :
    (valuesOf (buildLWW key recs)).filter (fun r => key r = n)
      = ((recs.filter (fun r => key r = n)).getLast?).toList := by
  rw [valuesOf_filter_eq_getLWW (buildLWW_invariant recs).1
    (buildLWW_invariant recs).2, getLWW_buildLWW]

theorem insertJs_own {o : JsObject α} {k : List Char} {v : α} :
    (insertJs o k v).own
      = if k = "__proto__".toList then o.own else insertLWW o.own k v := by
  unfold insertJs
  split <;> rfl

theorem insertJs_proto {o : JsObject α} {k : List Char} {v : α} :
    (insertJs o k v).proto
      = if k = "__proto__".toList then some v else o.proto := by
  unfold insertJs
  split <;> rfl

/-- The own properties of a built dictionary are the insert-or-overwrite fold
over the records whose key is not `__proto__`. -/
theorem buildJsObject_own (recs : List α) :
    (buildJsObject key recs).own
      = buildLWW key (recs.filter (fun r => ¬ key r = "__proto__".toList)) := by
  unfold buildJsObject buildLWW
  suffices h : ∀ o : JsObject α,
      (recs.foldl (fun acc r => insertJs acc (key r) r) o).own
        = (recs.filter (fun r => ¬ key r = "__proto__".toList)).foldl
            (fun acc r => insertLWW acc (key r) r) o.own by
    exact h emptyJsObject
  induction recs with
  | nil => intro o; rfl
  | cons r rs ih =>
    intro o
    simp only [List.foldl_cons, List.filter_cons]
    by_cases hr : key r = "__proto__".toList
    · rw [if_neg (by simp [hr])]
      rw [ih]
      congr 1
      rw [insertJs_own, if_pos hr]
    · rw [if_pos (by simpa using hr)]
      simp only [List.foldl_cons]
      rw [ih]
      congr 1
      rw [insertJs_own, if_neg hr]

/-- The prototype of a built dictionary is the record of the last assignment
with key `__proto__`, if any. -/
theorem buildJsObject_proto (recs : List α) :
    (buildJsObject key recs).proto
      = (recs.filter (fun r => key r = "__proto__".toList)).getLast? := by
  unfold buildJsObject
  suffices h : ∀ o : JsObject α,
      (recs.foldl (fun acc r => insertJs acc (key r) r) o).proto
        = ((recs.filter (fun r => key r = "__proto__".toList)).getLast?).orElse
            (fun _ => o.proto) by
    rw [h emptyJsObject]
    cases (recs.filter (fun r => key r = "__proto__".toList)).getLast? <;> rfl
  induction recs with
  | nil => intro o; simp
  | cons r rs ih =>
    intro o
    simp only [List.foldl_cons, List.filter_cons]
    by_cases hr : key r = "__proto__".toList
    · rw [if_pos (by simpa using hr)]
      rw [ih]
      simp only [insertJs_proto, if_pos hr]
      cases hlast : (rs.filter (fun r => key r = "__proto__".toList)).getLast? with
      | none =>
        have hnil : rs.filter (fun r => key r = "__proto__".toList) = [] :=
          List.getLast?_eq_none_iff.mp hlast
        rw [hnil]
        rfl
      | some v =>
        obtain ⟨x, l', hxl⟩ : ∃ x l',
            rs.filter (fun r => key r = "__proto__".toList) = x :: l' := by
          cases h : rs.filter (fun r => key r = "__proto__".toList) with
          | nil => rw [h] at hlast; simp at hlast
          | cons x l' => exact ⟨x, l', rfl⟩
        rw [hxl] at hlast ⊢
        rw [List.getLast?_cons_cons, hlast]
        rfl
    · rw [if_neg (by simpa using hr)]
      rw [ih]
      simp only [insertJs_proto, if_neg hr]

/-- Filtering by a name other than `__proto__` ignores the records dropped by
the `__proto__` assignment path. -/
theorem filter_ne_proto_filter_eq (recs : List α) {n : List Char}
    (hn : n ≠ "__proto__".toList) :
    (recs.filter (fun r => ¬ key r = "__proto__".toList)).filter
        (fun r => key r = n)
      = recs.filter (fun r => key r = n) := by
  induction recs with
  | nil => rfl
  | cons r rs ih =>
    simp only [List.filter_cons]
    by_cases hr : key r = n
    · have hnp : ¬ key r = "__proto__".toList := fun h => hn (hr.symm.trans h)
      rw [if_pos (by simpa using hnp)]
      simp only [List.filter_cons]
      rw [if_pos (by simpa using hr), if_pos (by simpa using hr), ih]
    · by_cases hp : key r = "__proto__".toList
      · rw [if_neg (by simpa using hp), if_neg (by simpa using hr), ih]
      · rw [if_pos (by simpa using hp)]
        simp only [List.filter_cons]
        rw [if_neg (by simpa using hr), if_neg (by simpa using hr), ih]

/-- No value of a built dictionary carries the key `__proto__`. -/
theorem valuesOf_buildJsObject_filter_proto (recs : List α) :
    (valuesOf (buildJsObject key recs).own).filter
        (fun r => key r = "__proto__".toList) = [] := by
  rw [buildJsObject_own]
  apply List.filter_eq_nil_iff.mpr
  intro r hr hdec
  have hrec : r ∈ recs.filter (fun r => ¬ key r = "__proto__".toList) :=
    mem_valuesOf_buildLWW hr
  have := List.of_mem_filter hrec
  simp only [decide_eq_true_eq] at this hdec
  exact this hdec

end LWW

/-! ## Lemmas about field parsing and the assembled model -/

theorem parseFieldLines_isEnum {enums : JsObject Enum}
    {lines : List (List Char)} {f : Field} (h : f ∈ parseFieldLines enums lines) :
    f.fieldTypeIsEnum = enumTruthy enums f.fieldType := by
  unfold parseFieldLines at h
  obtain ⟨line, -, hsome⟩ := List.mem_filterMap.mp h
  obtain ⟨⟨name, ty, rest⟩, -, rfl⟩ := Option.map_eq_some'.mp hsome
  rfl

theorem mkEntity_fields {enums : JsObject Enum} {audited : Bool}
    {name body : List Char} :
    (mkEntity enums audited name body).fields
      = parseFieldLines enums (fieldLinesOf body)
          ++ (if audited then AUDIT_FIELDS else []) := by
  unfold mkEntity
  cases audited <;> simp

theorem enumMapOf_inv {clean : List Char} :
    ∀ p ∈ (enumMapOf clean).own, p.2.name = p.1 := by
  intro p hp
  rw [show enumMapOf clean = buildJsObject Enum.name (enumRecordsOf clean)
    from rfl, buildJsObject_own] at hp
  exact (buildLWW_invariant _).1 p hp

/-- A replaced prototype of the enum dictionary always comes from a record
named `__proto__`. -/
theorem enumMapOf_proto_name {clean : List Char} {r : Enum}
    (h : (enumMapOf clean).proto = some r) : r.name = "__proto__".toList := by
  rw [show enumMapOf clean = buildJsObject Enum.name (enumRecordsOf clean)
    from rfl, buildJsObject_proto] at h
  have hmem := List.mem_of_mem_getLast? h
  have := List.of_mem_filter hmem
  simpa using this

/-- The truthiness test `!!enums[fieldType]`, characterised over the
assembled model: an extracted enum name, an inherited `Object.prototype`
member name, or — once an enum named `__proto__` replaced the prototype —
one of that record's own property names `name` and `values`. -/
theorem enumTruthy_iff {clean : List Char} {k : List Char} :
    enumTruthy (enumMapOf clean) k = true
      ↔ (k ∈ (valuesOf (enumMapOf clean).own).map Enum.name
          ∨ k ∈ OBJECT_PROTOTYPE_KEYS
          ∨ ((enumMapOf clean).proto ≠ none
             ∧ (k = "name".toList ∨ k = "values".toList))) := by
  unfold enumTruthy
  rw [Bool.or_eq_true, any_key_mem enumMapOf_inv]
  cases hp : (enumMapOf clean).proto with
  | none =>
    simp only [hp, ne_eq, not_true_eq_false, false_and, or_false,
      decide_eq_true_eq]
  | some r =>
    have hr : r.name ≠ [] := by
      rw [enumMapOf_proto_name hp]
      decide
    simp only [hp, ne_eq, reduceCtorEq, not_false_eq_true, true_and,
      Bool.or_eq_true, Bool.and_eq_true, decide_eq_true_eq, hr, and_true]
    tauto

/-- Every entity of the assembled model is built, by `mkEntity`, from an
entity match of the cleaned text that the `isCommented` check admitted. -/
theorem entity_mem_model {clean : List Char} {e : Entity}
    (h : e ∈ (assembleFromClean clean).entities) :
    ∃ m ∈ scanEntities clean.length 0 clean,
      isCommented clean m.1 = false
        ∧ e = mkEntity (enumMapOf clean) m.2.1 m.2.2.1 m.2.2.2 := by
  have hv : e ∈ valuesOf (buildJsObject Entity.name
      (entityRecordsOf clean (enumMapOf clean))).own := h
  rw [buildJsObject_own] at hv
  have h' : e ∈ entityRecordsOf clean (enumMapOf clean) :=
    List.mem_of_mem_filter (mem_valuesOf_buildLWW hv)
  unfold entityRecordsOf at h'
  obtain ⟨m, hm, rfl⟩ := List.mem_map.mp h'
  unfold keptEntityMatches at hm
  obtain ⟨hmem, hbool⟩ := List.mem_filter.mp hm
  exact ⟨m, hmem, by simpa using hbool, rfl⟩

/-- Every enum of the assembled model is built from an enum match of the
cleaned text that the `isCommented` check admitted. -/
theorem enum_mem_model {clean : List Char} {en : Enum}
    (h : en ∈ (assembleFromClean clean).enums) :
    ∃ m ∈ scanEnums clean.length 0 clean,
      isCommented clean m.1 = false
        ∧ en = { name := m.2.1, values := mkEnumValues m.2.2 } := by
  have hv : en ∈ valuesOf (buildJsObject Enum.name (enumRecordsOf clean)).own := h
  rw [buildJsObject_own] at hv
  have h' : en ∈ enumRecordsOf clean :=
    List.mem_of_mem_filter (mem_valuesOf_buildLWW hv)
  unfold enumRecordsOf at h'
  obtain ⟨m, hm, rfl⟩ := List.mem_map.mp h'
  unfold keptEnumMatches at hm
  obtain ⟨hmem, hbool⟩ := List.mem_filter.mp hm
  exact ⟨m, hmem, by simpa using hbool, rfl⟩

/-- Every relationship of the assembled model comes from a relationship match
of the cleaned text that the `isCommented` check admitted. -/
theorem rel_mem_model {clean : List Char} {r : Rel}
    (h : r ∈ (assembleFromClean clean).relationships) :
    ∃ m ∈ scanRels clean.length 0 clean,
      isCommented clean m.1 = false ∧ r = m.2 := by
  obtain ⟨m, hm, rfl⟩ := List.mem_map.mp h
  unfold keptRelMatches at hm
  obtain ⟨hmem, hbool⟩ := List.mem_filter.mp hm
  exact ⟨m, hmem, by simpa using hbool, rfl⟩

/-- On every input that is not an `Object.prototype` member name, the full
mapper `getTsTypeJs` returns a string and agrees with the string restriction
`getTsType`. -/
theorem getTsTypeJs_str_of_not_proto (t : List Char)
    (hp : t ∉ OBJECT_PROTOTYPE_KEYS) :
    getTsTypeJs t = TsType.str (getTsType t) := by
  by_cases h1 : t = "String".toList
  · subst h1; decide
  by_cases h2 : t = "Integer".toList
  · subst h2; decide
  by_cases h3 : t = "Long".toList
  · subst h3; decide
  by_cases h4 : t = "BigDecimal".toList
  · subst h4; decide
  by_cases h5 : t = "Float".toList
  · subst h5; decide
  by_cases h6 : t = "Double".toList
  · subst h6; decide
  by_cases h7 : t = "Boolean".toList
  · subst h7; decide
  by_cases h8 : t = "LocalDate".toList
  · subst h8; decide
  by_cases h9 : t = "Instant".toList
  · subst h9; decide
  by_cases h10 : t = "ZonedDateTime".toList
  · subst h10; decide
  by_cases h11 : t = "TextBlob".toList
  · subst h11; decide
  by_cases h12 : t = "UUID".toList
  · subst h12; decide
  unfold getTsTypeJs getTsType
  rw [if_neg h1, if_neg h2, if_neg h3, if_neg h4, if_neg h5, if_neg h6,
    if_neg h7, if_neg h8, if_neg h9, if_neg h10, if_neg h11, if_neg h12,
    if_neg hp, if_neg h1, if_neg h2, if_neg h3, if_neg h4, if_neg h5,
    if_neg h6, if_neg h7, if_neg h8, if_neg h9, if_neg h10, if_neg h11,
    if_neg h12]

/-! ## The claims -/

/-- Claim C1 (corrected), counterexample in two parts. First, `!!enums[k]` is
a prototype-chain lookup on an object literal: in
`entity Foo \x7b x toString \x7d`, with no enum declared at all, the field
type `toString` hits the inherited `Object.prototype.toString`, which is
truthy, so `fieldTypeIsEnum` is `true`. Second, in a document declaring
`enum String` and an audited entity, the injected `createdBy` audit field has
raw type `String` — the name of a declared enum — but its `fieldTypeIsEnum`
flag is hard-coded `false`. Both documents falsify the claimed
biconditional. -/
theorem C1_counterexample :
    ¬ (∀ e ∈ (parseJdl "entity Foo \x7b x toString \x7d".toList).entities,
        ∀ f ∈ e.fields,
          (f.fieldTypeIsEnum = true
            ↔ f.fieldType ∈ (parseJdl "entity Foo \x7b x toString \x7d".toList).enums.map Enum.name))
    ∧ ¬ (∀ e ∈ (parseJdl "enum String \x7b A \x7d\n@EnableAudit\nentity B \x7b x Integer \x7d".toList).entities,
        ∀ f ∈ e.fields,
          (f.fieldTypeIsEnum = true
            ↔ f.fieldType ∈ (parseJdl "enum String \x7b A \x7d\n@EnableAudit\nentity B \x7b x Integer \x7d".toList).enums.map Enum.name)) := by
  refine ⟨by decide, by decide⟩

/-- Claim C1 (corrected, amended claim): every extracted entity's field list is
a list of fields parsed from its declared field lines followed by the audit
block (when annotated), and for every *parsed* field the `fieldTypeIsEnum`
flag — the truthiness of the prototype-chain lookup `enums[fieldType]` — is
true iff the raw type name is the name of some extracted enum of the document
(regardless of declaration order, since the enum map is fully populated
before any entity is parsed), or an inherited `Object.prototype` member name
(`toString`, `constructor`, ...), or — when an uncommented `enum __proto__`
declaration replaced the dictionary's prototype by its record — one of that
record's own property names `name` and `values`. -/
theorem C1_enum_flag (d : List Char) (e : Entity)
    (he : e ∈ (parseJdl d).entities) :
    ∃ (declared : List Field) (audited : Bool),
      e.fields = declared ++ (if audited then AUDIT_FIELDS else [])
      ∧ ∀ f ∈ declared,
          (f.fieldTypeIsEnum = true
            ↔ (f.fieldType ∈ (parseJdl d).enums.map Enum.name
               ∨ f.fieldType ∈ OBJECT_PROTOTYPE_KEYS
               ∨ ((enumMapOf (stripBlockComments d)).proto ≠ none
                  ∧ (f.fieldType = "name".toList
                     ∨ f.fieldType = "values".toList)))) := by
  obtain ⟨m, hm, hnc, rfl⟩ := entity_mem_model he
  refine ⟨parseFieldLines (enumMapOf (stripBlockComments d))
    (fieldLinesOf m.2.2.2), m.2.1, mkEntity_fields, ?_⟩
  intro f hf
  rw [parseFieldLines_isEnum hf]
  exact enumTruthy_iff

/-- Witness for C1: `enum Status { ACTIVE, INACTIVE }` followed by
`entity Task { status Status }` — the parsed `status` field satisfies the
characterisation through its first disjunct. -/
theorem C1_witness :
    ∃ (declared : List Field) (audited : Bool),
      (Entity.mk "Task".toList
          [{ fieldName := "status".toList, fieldType := "Status".toList,
             fieldTypeIsEnum := true, fieldValidateRules := [],
             comment := none }]).fields
        = declared ++ (if audited then AUDIT_FIELDS else [])
      ∧ ∀ f ∈ declared,
          (f.fieldTypeIsEnum = true
            ↔ (f.fieldType ∈ (parseJdl "enum Status \x7b ACTIVE, INACTIVE \x7d\nentity Task \x7b status Status \x7d".toList).enums.map Enum.name
               ∨ f.fieldType ∈ OBJECT_PROTOTYPE_KEYS
               ∨ ((enumMapOf (stripBlockComments "enum Status \x7b ACTIVE, INACTIVE \x7d\nentity Task \x7b status Status \x7d".toList)).proto ≠ none
                  ∧ (f.fieldType = "name".toList
                     ∨ f.fieldType = "values".toList)))) :=
  C1_enum_flag _ _ (by decide)

/-- Claim C2 (confirmed): an audited entity's extracted field sequence is its
declared (parsed) fields followed by exactly the four audit fields in fixed
order — with the stated names, types, `fieldTypeIsEnum := false`, no
validation rules and no comment — for any declared field count including
zero; an entity without the annotation gets exactly its declared fields. -/
theorem C2_audit_injection :
    ∀ (enums : JsObject Enum) (name body : List Char),
      (mkEntity enums true name body).fields
          = parseFieldLines enums (fieldLinesOf body) ++ AUDIT_FIELDS
      ∧ (mkEntity enums false name body).fields
          = parseFieldLines enums (fieldLinesOf body)
      ∧ AUDIT_FIELDS
          = [{ fieldName := "createdBy".toList, fieldType := "String".toList,
               fieldTypeIsEnum := false, fieldValidateRules := [], comment := none },
             { fieldName := "createdDate".toList, fieldType := "Instant".toList,
               fieldTypeIsEnum := false, fieldValidateRules := [], comment := none },
             { fieldName := "lastModifiedBy".toList, fieldType := "String".toList,
               fieldTypeIsEnum := false, fieldValidateRules := [], comment := none },
             { fieldName := "lastModifiedDate".toList, fieldType := "Instant".toList,
               fieldTypeIsEnum := false, fieldValidateRules := [], comment := none }] := by
  intro enums name body
  refine ⟨?_, ?_, rfl⟩
  · rw [mkEntity_fields]
    simp
  · rw [mkEntity_fields]
    simp

/-- Claim C3 (corrected), counterexample: for a relationship targeting
`Customer`, the plural annotation is `customers` — the *lowercased* target
name with `s` appended — not the claimed suffix-appended plural `Customers`
of the target name itself. -/
theorem C3_counterexample :
    (entityRelationships ⟨"Order".toList, []⟩
        [⟨"ManyToOne".toList, ⟨"Order".toList, none⟩, ⟨"Customer".toList, none⟩⟩]).map
        (fun rc => rc.otherEntityNamePlural)
      = ["customers".toList]
    ∧ (entityRelationships ⟨"Order".toList, []⟩
        [⟨"ManyToOne".toList, ⟨"Order".toList, none⟩, ⟨"Customer".toList, none⟩⟩]).map
        (fun rc => rc.otherEntityNamePlural)
      ≠ ["Customer".toList ++ ['s']] := by
  refine ⟨by decide, by decide⟩

/-- Claim C3 (corrected, amended claim): the relationship list of an entity's
render context consists of exactly the relationships whose from-endpoint name
equals the entity's name, in original order, each annotated with the target
entity name, its Pascal-case derivative, and the plural formed by
*lowercasing* the target name and appending `s`. -/
theorem C3_relationship_context :
    ∀ (e : Entity) (rels : List Rel),
      (entityRelationships e rels).map (fun rc => (rc.type, rc.frm, rc.toE))
          = (rels.filter (fun r => r.frm.name = e.name)).map
              (fun r => (r.type, r.frm, r.toE))
      ∧ ∀ rc ∈ entityRelationships e rels,
          rc.otherEntityName = rc.toE.name
          ∧ rc.otherEntityNamePascalCase = toPascalCase rc.toE.name
          ∧ rc.otherEntityNamePlural = toLowerList rc.toE.name ++ ['s'] := by
  intro e rels
  constructor
  · unfold entityRelationships
    rw [List.map_map]
    rfl
  · intro rc hrc
    obtain ⟨r, -, rfl⟩ := List.mem_map.mp hrc
    exact ⟨rfl, rfl, rfl⟩

/-- Witness for C3 at a concrete relationship. -/
theorem C3_witness :
    (RelCtx.mk "ManyToOne".toList ⟨"Order".toList, none⟩ ⟨"Customer".toList, none⟩
        "Customer".toList "Customer".toList "customers".toList)
      ∈ entityRelationships ⟨"Order".toList, []⟩
          [⟨"ManyToOne".toList, ⟨"Order".toList, none⟩, ⟨"Customer".toList, none⟩⟩]
    ∧ ((RelCtx.mk "ManyToOne".toList ⟨"Order".toList, none⟩ ⟨"Customer".toList, none⟩
        "Customer".toList "Customer".toList "customers".toList).otherEntityName
          = (RelCtx.mk "ManyToOne".toList ⟨"Order".toList, none⟩ ⟨"Customer".toList, none⟩
        "Customer".toList "Customer".toList "customers".toList).toE.name
      ∧ (RelCtx.mk "ManyToOne".toList ⟨"Order".toList, none⟩ ⟨"Customer".toList, none⟩
        "Customer".toList "Customer".toList "customers".toList).otherEntityNamePascalCase
          = toPascalCase (RelCtx.mk "ManyToOne".toList ⟨"Order".toList, none⟩ ⟨"Customer".toList, none⟩
        "Customer".toList "Customer".toList "customers".toList).toE.name
      ∧ (RelCtx.mk "ManyToOne".toList ⟨"Order".toList, none⟩ ⟨"Customer".toList, none⟩
        "Customer".toList "Customer".toList "customers".toList).otherEntityNamePlural
          = toLowerList (RelCtx.mk "ManyToOne".toList ⟨"Order".toList, none⟩ ⟨"Customer".toList, none⟩
        "Customer".toList "Customer".toList "customers".toList).toE.name ++ ['s']) :=
  ⟨by decide,
   (C3_relationship_context ⟨"Order".toList, []⟩
      [⟨"ManyToOne".toList, ⟨"Order".toList, none⟩, ⟨"Customer".toList, none⟩⟩]).2
     _ (by decide)⟩

/-- Claim C4 (corrected), counterexample: on `/*a*/b/*c*/` the stripper keeps
`b` (each span ends at the *nearest* `*/`, the regex quantifier being lazy),
whereas a greedy span as the claim words it would swallow the whole string. -/
theorem C4_counterexample :
    stripBlockComments "/*a*/b/*c*/".toList = "b".toList
    ∧ greedyStripBlockComments "/*a*/b/*c*/".toList = []
    ∧ stripBlockComments "/*a*/b/*c*/".toList
        ≠ greedyStripBlockComments "/*a*/b/*c*/".toList := by
  refine ⟨by decide, by decide, by decide⟩

/-- Claim C4 (corrected, amended claim): every block-comment span — from a
start marker to the *nearest* following end marker, possibly across lines —
is replaced by nothing, text outside every such span is unchanged, and a
document with no start marker is returned unchanged. -/
theorem C4_strip_block_comments :
    (∀ a b c : List Char, hasOpen a = false → hasClose b = false →
        stripBlockComments (a ++ '/' :: '*' :: (b ++ '*' :: '/' :: c))
          = a ++ stripBlockComments c)
    ∧ (∀ s : List Char, hasOpen s = false → stripBlockComments s = s) :=
  ⟨fun _ _ _ hoa hcb => stripBlockComments_splice hoa hcb,
   fun _ h => stripBlockComments_no_open h⟩

/-- Witness for C4: a multi-line block comment between two text segments. -/
theorem C4_witness :
    hasOpen "x ".toList = false
    ∧ hasClose " multi\nline ".toList = false
    ∧ stripBlockComments
        ("x ".toList ++ '/' :: '*' :: (" multi\nline ".toList ++ '*' :: '/' :: " y".toList))
      = "x ".toList ++ stripBlockComments " y".toList :=
  ⟨by decide, by decide,
   C4_strip_block_comments.1 "x ".toList " multi\nline ".toList " y".toList
     (by decide) (by decide)⟩

/-- Claim C5 (confirmed): a declaration entirely inside a block comment
contributes nothing — parsing a document with a block comment spliced in
equals parsing the document with the comment removed — and every entity,
enum, and relationship of the model arises from a match of the cleaned text
at a position whose line prefix is *not* line-commented: a declaration whose
match index sits on a `//`-prefixed line is excluded. -/
theorem C5_comment_exclusion :
    (∀ a b c : List Char, hasOpen (a ++ c) = false → hasClose b = false →
        parseJdl (a ++ '/' :: '*' :: (b ++ '*' :: '/' :: c)) = parseJdl (a ++ c))
    ∧ (∀ (d : List Char) (e : Entity), e ∈ (parseJdl d).entities →
        ∃ m ∈ scanEntities (stripBlockComments d).length 0 (stripBlockComments d),
          isCommented (stripBlockComments d) m.1 = false
            ∧ e = mkEntity (enumMapOf (stripBlockComments d)) m.2.1 m.2.2.1 m.2.2.2)
    ∧ (∀ (d : List Char) (en : Enum), en ∈ (parseJdl d).enums →
        ∃ m ∈ scanEnums (stripBlockComments d).length 0 (stripBlockComments d),
          isCommented (stripBlockComments d) m.1 = false
            ∧ en = { name := m.2.1, values := mkEnumValues m.2.2 })
    ∧ (∀ (d : List Char) (r : Rel), r ∈ (parseJdl d).relationships →
        ∃ m ∈ scanRels (stripBlockComments d).length 0 (stripBlockComments d),
          isCommented (stripBlockComments d) m.1 = false ∧ r = m.2) := by
  refine ⟨?_, ?_, ?_, ?_⟩
  · intro a b c hoc hcb
    unfold parseJdl
    rw [stripBlockComments_splice (hasOpen_append_left hoc) hcb,
      stripBlockComments_no_open (hasOpen_append_right hoc),
      stripBlockComments_no_open hoc]
  · intro d e he
    exact entity_mem_model he
  · intro d en hen
    exact enum_mem_model hen
  · intro d r hr
    exact rel_mem_model hr

/-- Witness for C5: a block comment containing a well-formed entity
declaration contributes nothing. -/
theorem C5_witness :
    hasOpen ("x ".toList ++ " entity A \x7b y Long \x7d".toList) = false
    ∧ hasClose " entity Hidden \x7b z Long \x7d ".toList = false
    ∧ parseJdl ("x ".toList
        ++ '/' :: '*' :: (" entity Hidden \x7b z Long \x7d ".toList
            ++ '*' :: '/' :: " entity A \x7b y Long \x7d".toList))
      = parseJdl ("x ".toList ++ " entity A \x7b y Long \x7d".toList) :=
  ⟨by decide, by decide,
   C5_comment_exclusion.1 "x ".toList " entity Hidden \x7b z Long \x7d ".toList
     " entity A \x7b y Long \x7d".toList (by decide) (by decide)⟩

/-- Claim C6 (corrected), counterexample: `typeMappings` is an object literal,
so on the non-key `toString` the lookup `typeMappings['toString']` finds the
inherited `Object.prototype.toString` function; being truthy, `||` returns
that member — not the input string — so the mapper does not return every
non-key input unchanged. -/
theorem C6_counterexample :
    "toString".toList ∉ TS_TYPE_KEYS
    ∧ getTsTypeJs "toString".toList = TsType.protoMember "toString".toList
    ∧ getTsTypeJs "toString".toList ≠ TsType.str "toString".toList := by
  refine ⟨by decide, by decide, by decide⟩

/-- Claim C6 (corrected, amended claim): the mapper realises exactly the fixed
twelve-entry table; on an input that is neither a table key nor an
`Object.prototype` member name it returns the input unchanged; on a non-key
that is an `Object.prototype` member name the lookup hits the truthy
inherited member and returns that member instead of the input. It is total by
construction. -/
theorem C6_type_mapper :
    (getTsTypeJs "String".toList = TsType.str "string".toList
      ∧ getTsTypeJs "Integer".toList = TsType.str "number".toList
      ∧ getTsTypeJs "Long".toList = TsType.str "number".toList
      ∧ getTsTypeJs "BigDecimal".toList = TsType.str "number".toList
      ∧ getTsTypeJs "Float".toList = TsType.str "number".toList
      ∧ getTsTypeJs "Double".toList = TsType.str "number".toList
      ∧ getTsTypeJs "Boolean".toList = TsType.str "boolean".toList
      ∧ getTsTypeJs "LocalDate".toList = TsType.str "dayjs.Dayjs".toList
      ∧ getTsTypeJs "Instant".toList = TsType.str "dayjs.Dayjs".toList
      ∧ getTsTypeJs "ZonedDateTime".toList = TsType.str "dayjs.Dayjs".toList
      ∧ getTsTypeJs "TextBlob".toList = TsType.str "string".toList
      ∧ getTsTypeJs "UUID".toList = TsType.str "string".toList)
    ∧ (∀ t : List Char, t ∉ TS_TYPE_KEYS → t ∉ OBJECT_PROTOTYPE_KEYS →
        getTsTypeJs t = TsType.str t)
    ∧ (∀ t ∈ OBJECT_PROTOTYPE_KEYS, t ∉ TS_TYPE_KEYS
        ∧ getTsTypeJs t = TsType.protoMember t) := by
  refine ⟨⟨rfl, rfl, rfl, rfl, rfl, rfl, rfl, rfl, rfl, rfl, rfl, rfl⟩, ?_, by decide⟩
  intro t ht hp
  simp only [TS_TYPE_KEYS, List.mem_cons, List.not_mem_nil, or_false,
    not_or] at ht
  obtain ⟨h1, h2, h3, h4, h5, h6, h7, h8, h9, h10, h11, h12⟩ := ht
  unfold getTsTypeJs
  rw [if_neg h1, if_neg h2, if_neg h3, if_neg h4, if_neg h5, if_neg h6,
    if_neg h7, if_neg h8, if_neg h9, if_neg h10, if_neg h11, if_neg h12,
    if_neg hp]

/-- Witness for C6: an unknown enum-like type name — neither a table key nor
an `Object.prototype` member name — passes through unchanged. -/
theorem C6_witness :
    "Status".toList ∉ TS_TYPE_KEYS
    ∧ "Status".toList ∉ OBJECT_PROTOTYPE_KEYS
    ∧ getTsTypeJs "Status".toList = TsType.str "Status".toList :=
  ⟨by decide, by decide,
   C6_type_mapper.2.1 "Status".toList (by decide) (by decide)⟩

/-- Claim C7 (confirmed): the type mapper is idempotent — every output is a
fixed point. -/
theorem C7_idempotent : ∀ t : List Char, getTsType (getTsType t) = getTsType t := by
  intro t
  by_cases h1 : t = "String".toList
  · subst h1; decide
  by_cases h2 : t = "Integer".toList
  · subst h2; decide
  by_cases h3 : t = "Long".toList
  · subst h3; decide
  by_cases h4 : t = "BigDecimal".toList
  · subst h4; decide
  by_cases h5 : t = "Float".toList
  · subst h5; decide
  by_cases h6 : t = "Double".toList
  · subst h6; decide
  by_cases h7 : t = "Boolean".toList
  · subst h7; decide
  by_cases h8 : t = "LocalDate".toList
  · subst h8; decide
  by_cases h9 : t = "Instant".toList
  · subst h9; decide
  by_cases h10 : t = "ZonedDateTime".toList
  · subst h10; decide
  by_cases h11 : t = "TextBlob".toList
  · subst h11; decide
  by_cases h12 : t = "UUID".toList
  · subst h12; decide
  have hid : getTsType t = t := by
    unfold getTsType
    rw [if_neg h1, if_neg h2, if_neg h3, if_neg h4, if_neg h5, if_neg h6,
      if_neg h7, if_neg h8, if_neg h9, if_neg h10, if_neg h11, if_neg h12]
  rw [hid]
  exact hid

/-- Claim C8 (corrected), counterexample: two uncommented declarations of an
entity named `__proto__` both match the entity scan, yet the model contains
no entity at all — the assignment `entities['__proto__'] = record` invokes
the inherited `Object.prototype.__proto__` setter instead of creating an own
property, so `Object.values` returns nothing: in particular there is no
record built from the last declaration. -/
theorem C8_counterexample :
    (keptEntityMatches (stripBlockComments "entity __proto__ \x7b x String \x7d\nentity __proto__ \x7b y Long \x7d".toList)).length = 2
    ∧ (parseJdl "entity __proto__ \x7b x String \x7d\nentity __proto__ \x7b y Long \x7d".toList).entities = [] := by
  refine ⟨by decide, by decide⟩

/-- Claim C8 (corrected, amended claim): for every document and every name
other than `__proto__`, the assembled model keeps at most one entity (and one
enum) record per name, and its content is the record built from the *last*
uncommented declaration of that name, in document order (last-writer-wins);
for the name `__proto__`, however, the dictionary assignment triggers the
inherited prototype setter and creates no property, so the model contains no
record of that name no matter how many times it is declared. -/
theorem C8_last_writer_wins :
    (∀ (d n : List Char), n ≠ "__proto__".toList →
      (parseJdl d).entities.filter (fun e => e.name = n)
          = ((entityRecordsOf (stripBlockComments d)
              (enumMapOf (stripBlockComments d))).filter
                (fun e => e.name = n)).getLast?.toList
      ∧ (parseJdl d).enums.filter (fun en => en.name = n)
          = ((enumRecordsOf (stripBlockComments d)).filter
              (fun en => en.name = n)).getLast?.toList)
    ∧ (∀ d : List Char,
      (parseJdl d).entities.filter (fun e => e.name = "__proto__".toList) = []
      ∧ (parseJdl d).enums.filter (fun en => en.name = "__proto__".toList) = []) := by
  constructor
  · intro d n hn
    constructor
    · show (valuesOf (buildJsObject Entity.name (entityRecordsOf
          (stripBlockComments d) (enumMapOf (stripBlockComments d)))).own).filter
            (fun e => e.name = n) = _
      rw [buildJsObject_own, valuesOf_buildLWW_filter,
        filter_ne_proto_filter_eq _ hn]
    · show (valuesOf (buildJsObject Enum.name (enumRecordsOf
          (stripBlockComments d))).own).filter (fun en => en.name = n) = _
      rw [buildJsObject_own, valuesOf_buildLWW_filter,
        filter_ne_proto_filter_eq _ hn]
  · intro d
    exact ⟨valuesOf_buildJsObject_filter_proto _,
      valuesOf_buildJsObject_filter_proto _⟩

/-- Witness for C8 at a concrete document with two declarations of entity
`A`: the model's sole `A` record is the one built from the second
declaration. -/
theorem C8_witness :
    (parseJdl "entity A \x7b x String \x7d\nentity A \x7b y Long \x7d".toList).entities.filter
        (fun e => e.name = "A".toList)
      = ((entityRecordsOf
            (stripBlockComments "entity A \x7b x String \x7d\nentity A \x7b y Long \x7d".toList)
            (enumMapOf (stripBlockComments "entity A \x7b x String \x7d\nentity A \x7b y Long \x7d".toList))).filter
              (fun e => e.name = "A".toList)).getLast?.toList :=
  (C8_last_writer_wins.1 "entity A \x7b x String \x7d\nentity A \x7b y Long \x7d".toList
    "A".toList (by decide)).1

/-- Claim C9 (confirmed): `parseJdl` is a total function (it can only return a
model, never raise); the empty document yields the empty model, and a field
line that does not match the field grammar is dropped while the surrounding
lines still parse. -/
theorem C9_graceful_degradation :
    parseJdl [] = { entities := [], enums := [], relationships := [] }
    ∧ ∀ (enums : JsObject Enum) (ls₁ ls₂ : List (List Char))
        (bad : List Char), tryFieldMatch bad = none →
        parseFieldLines enums (ls₁ ++ bad :: ls₂)
          = parseFieldLines enums (ls₁ ++ ls₂) := by
  constructor
  · rfl
  · intro enums ls₁ ls₂ bad hbad
    unfold parseFieldLines
    rw [List.filterMap_append, List.filterMap_append, List.filterMap_cons]
    rw [hbad]
    rfl

/-- Witness for C9: the malformed line `???` is dropped, its neighbours kept. -/
theorem C9_witness :
    tryFieldMatch "???".toList = none
    ∧ parseFieldLines emptyJsObject
        (["id Long".toList] ++ "???".toList :: ["name String".toList])
        = parseFieldLines emptyJsObject
            (["id Long".toList] ++ ["name String".toList]) :=
  ⟨by decide,
   C9_graceful_degradation.2 emptyJsObject ["id Long".toList]
     ["name String".toList] "???".toList (by decide)⟩

/-! ## Lemmas for the commented-annotation claim (C10) -/

theorem lit_cons_ne {p c : Char} {ps cs : List Char} (h : c ≠ p) :
    lit (p :: ps) (c :: cs) = none := by
  simp [lit, h]

theorem scanEntities_nil {fuel i : Nat} : scanEntities fuel i [] = [] := by
  cases fuel <;> rfl

theorem scanEntities_cons_none {fuel i : Nat} {c : Char} {rest : List Char}
    (h : tryEntity (c :: rest) = none) :
    scanEntities (fuel + 1) i (c :: rest) = scanEntities fuel (i + 1) rest := by
  simp [scanEntities, h]

theorem scanEntities_cons_some {fuel i : Nat} {c : Char} {rest rest' : List Char}
    {m : Bool × List Char × List Char}
    (h : tryEntity (c :: rest) = some (m, rest')) :
    scanEntities (fuel + 1) i (c :: rest)
      = (i, m) :: scanEntities fuel (i + ((c :: rest).length - rest'.length)) rest' := by
  simp [scanEntities, h]

theorem tryEntity_none_of_head {c : Char} {rest : List Char}
    (h1 : c ≠ '@') (h2 : c ≠ 'e') : tryEntity (c :: rest) = none := by
  unfold tryEntity tryEntityCore
  rw [show "@EnableAudit".toList = '@' :: "EnableAudit".toList from rfl,
    show "entity".toList = 'e' :: "ntity".toList from rfl,
    lit_cons_ne h1, lit_cons_ne h2]
  rfl

/-- Forward evaluation of the core entity pattern on a canonically shaped
input. -/
theorem tryEntityCore_shape {name body rest : List Char}
    (hn : name ≠ []) (hnw : ∀ c ∈ name, isWordChar c = true)
    (hb : body ≠ []) (hbw : ∀ c ∈ body, c ≠ '}') :
    tryEntityCore
        ("entity ".toList ++ (name ++ (' ' :: '{' :: (body ++ ('}' :: rest)))))
      = some ((name, body), rest) := by
  obtain ⟨n₀, name', rfl⟩ : ∃ n₀ name', name = n₀ :: name' := by
    cases name with
    | nil => exact absurd rfl hn
    | cons a b => exact ⟨a, b, rfl⟩
  obtain ⟨b₀, body', rfl⟩ : ∃ b₀ body', body = b₀ :: body' := by
    cases body with
    | nil => exact absurd rfl hb
    | cons a b => exact ⟨a, b, rfl⟩
  have hsh : "entity ".toList ++ ((n₀ :: name') ++ (' ' :: '{' :: ((b₀ :: body') ++ ('}' :: rest))))
      = "entity".toList
          ++ (' ' :: ((n₀ :: name') ++ (' ' :: '{' :: ((b₀ :: body') ++ ('}' :: rest))))) := by
    rw [show "entity ".toList = "entity".toList ++ [' '] from by decide,
      List.append_assoc]
    rfl
  have hw1tk : ((n₀ :: name') ++ (' ' :: '{' :: ((b₀ :: body') ++ ('}' :: rest)))).takeWhile
      isSpaceChar = [] := by
    rw [List.cons_append, List.takeWhile_cons,
      isSpaceChar_eq_false_of_word (hnw n₀ (by simp))]
    simp
  have hw1 : takeWhile1 isSpaceChar
      ([' '] ++ ((n₀ :: name') ++ (' ' :: '{' :: ((b₀ :: body') ++ ('}' :: rest)))))
      = some ([' '], (n₀ :: name') ++ (' ' :: '{' :: ((b₀ :: body') ++ ('}' :: rest)))) :=
    takeWhile1_append (by simp)
      (by intro x hx; simp at hx; subst hx; decide) hw1tk
  have hw2tk : (' ' :: '{' :: ((b₀ :: body') ++ ('}' :: rest))).takeWhile isWordChar
      = [] := by
    rw [List.takeWhile_cons, show isWordChar ' ' = false from by decide]
    simp
  have hw2 : takeWhile1 isWordChar
      ((n₀ :: name') ++ (' ' :: '{' :: ((b₀ :: body') ++ ('}' :: rest))))
      = some (n₀ :: name', ' ' :: '{' :: ((b₀ :: body') ++ ('}' :: rest))) :=
    takeWhile1_append (by simp) hnw hw2tk
  have hw3t : (' ' :: '{' :: ((b₀ :: body') ++ ('}' :: rest))).takeWhile isSpaceChar
      = [' '] := by
    rw [List.takeWhile_cons, show isSpaceChar ' ' = true from by decide,
      List.takeWhile_cons, show isSpaceChar '{' = false from by decide]
    simp
  have hw3d : (' ' :: '{' :: ((b₀ :: body') ++ ('}' :: rest))).dropWhile isSpaceChar
      = '{' :: ((b₀ :: body') ++ ('}' :: rest)) := by
    rw [List.dropWhile_cons]
    rw [show isSpaceChar ' ' = true from by decide]
    rw [List.dropWhile_cons]
    rw [show isSpaceChar '{' = false from by decide]
    simp
  have hw3 : takeWhileP isSpaceChar (' ' :: '{' :: ((b₀ :: body') ++ ('}' :: rest)))
      = ([' '], '{' :: ((b₀ :: body') ++ ('}' :: rest))) := by
    unfold takeWhileP
    rw [hw3t, hw3d]
  have hw4 : lit ['{'] ('{' :: ((b₀ :: body') ++ ('}' :: rest)))
      = some ((b₀ :: body') ++ ('}' :: rest)) := by
    simp [lit]
  have hw5tk : ('}' :: rest).takeWhile (fun c => decide (c ≠ '}')) = [] := by
    rw [List.takeWhile_cons]
    simp
  have hw5 : takeWhile1 (fun c => decide (c ≠ '}'))
      ((b₀ :: body') ++ ('}' :: rest)) = some (b₀ :: body', '}' :: rest) :=
    takeWhile1_append (by simp)
      (by intro c hc; simpa using hbw c hc) hw5tk
  have hw6 : lit ['}'] ('}' :: rest) = some rest := by
    simp [lit]
  rw [hsh]
  simp only [List.cons_append, List.nil_append] at hw1 hw2 hw3 hw4 hw5
  simp only [decide_not] at hw5
  simp only [tryEntityCore, lit_self_append, List.singleton_append]
  simp [hw1, hw2, hw3, hw4, hw5, hw6]

/-- Forward evaluation of the full entity pattern when the audit annotation
is present: the match starts at the `@` and the audit flag is set. -/
theorem tryEntity_shape {name body rest : List Char}
    (hn : name ≠ []) (hnw : ∀ c ∈ name, isWordChar c = true)
    (hb : body ≠ []) (hbw : ∀ c ∈ body, c ≠ '}') :
    tryEntity ("@EnableAudit\n".toList
        ++ ("entity ".toList ++ (name ++ (' ' :: '{' :: (body ++ ('}' :: rest))))))
      = some ((true, name, body), rest) := by
  have hsh : "@EnableAudit\n".toList
      ++ ("entity ".toList ++ (name ++ (' ' :: '{' :: (body ++ ('}' :: rest)))))
      = "@EnableAudit".toList
          ++ ('\n' :: ("entity ".toList ++ (name ++ (' ' :: '{' :: (body ++ ('}' :: rest)))))) := by
    rw [show "@EnableAudit\n".toList = "@EnableAudit".toList ++ ['\n'] from by decide,
      List.append_assoc]
    rfl
  have hw1tk : ("entity ".toList
      ++ (name ++ (' ' :: '{' :: (body ++ ('}' :: rest))))).takeWhile isSpaceChar
      = [] := by
    rw [show "entity ".toList ++ (name ++ (' ' :: '{' :: (body ++ ('}' :: rest))))
        = 'e' :: ("ntity ".toList ++ (name ++ (' ' :: '{' :: (body ++ ('}' :: rest)))))
      from rfl]
    rw [List.takeWhile_cons, show isSpaceChar 'e' = false from by decide]
    simp
  have hw1 : takeWhile1 isSpaceChar
      (['\n'] ++ ("entity ".toList ++ (name ++ (' ' :: '{' :: (body ++ ('}' :: rest))))))
      = some (['\n'], "entity ".toList ++ (name ++ (' ' :: '{' :: (body ++ ('}' :: rest))))) :=
    takeWhile1_append (by simp)
      (by intro x hx; simp at hx; subst hx; decide) hw1tk
  have hcore := @tryEntityCore_shape name body rest hn hnw hb hbw
  unfold tryEntity
  rw [hsh]
  simp only [List.singleton_append] at hw1
  rw [lit_self_append]
  simp only [Option.bind_eq_bind, Option.some_bind]
  rw [hw1]
  simp only [Option.some_bind]
  rw [hcore]

/-- Claim C10 (confirmed): when the line immediately preceding an entity
declaration is the line-commented audit annotation `// @EnableAudit`, the
entity scan produces exactly one match, it begins at index 3 — the `@` of the
annotation token inside the commented line — with the audit flag set, the
positional comment check flags that index, and the model therefore contains
no entity at all: commenting out just the annotation removes the whole
entity. -/
theorem C10_commented_audit :
    ∀ name body : List Char,
      name ≠ [] → (∀ c ∈ name, isWordChar c = true) →
      body ≠ [] → (∀ c ∈ body, c ≠ '}') →
      hasOpen (commentedAuditDoc name body) = false →
      scanEntities (commentedAuditDoc name body).length 0 (commentedAuditDoc name body)
          = [(3, true, name, body)]
      ∧ isCommented (commentedAuditDoc name body) 3 = true
      ∧ (parseJdl (commentedAuditDoc name body)).entities = [] := by
  intro name body hn hnw hb hbw hop
  have hdoc : commentedAuditDoc name body
      = '/' :: '/' :: ' ' :: ("@EnableAudit\n".toList
          ++ ("entity ".toList ++ (name ++ (' ' :: '{' :: (body ++ ('}' :: [])))))) := rfl
  have htry := @tryEntity_shape name body [] hn hnw hb hbw
  have htry' : tryEntity
      ('@' :: ("EnableAudit\n".toList
        ++ ("entity ".toList ++ (name ++ (' ' :: '{' :: (body ++ ('}' :: [])))))))
      = some ((true, name, body), []) := htry
  have hscan : scanEntities
      (("@EnableAudit\n".toList
          ++ ("entity ".toList ++ (name ++ (' ' :: '{' :: (body ++ ('}' :: [])))))).length + 3)
      0
      ('/' :: '/' :: ' ' :: ("@EnableAudit\n".toList
          ++ ("entity ".toList ++ (name ++ (' ' :: '{' :: (body ++ ('}' :: [])))))))
      = [(3, true, name, body)] := by
    rw [scanEntities_cons_none (tryEntity_none_of_head (by decide) (by decide))]
    rw [scanEntities_cons_none (tryEntity_none_of_head (by decide) (by decide))]
    rw [scanEntities_cons_none (tryEntity_none_of_head (by decide) (by decide))]
    rw [show ("@EnableAudit\n".toList
        ++ ("entity ".toList ++ (name ++ (' ' :: '{' :: (body ++ ('}' :: [])))))).length
        = ("EnableAudit\n".toList
            ++ ("entity ".toList ++ (name ++ (' ' :: '{' :: (body ++ ('}' :: [])))))).length + 1
      from rfl]
    rw [show ("@EnableAudit\n".toList
        ++ ("entity ".toList ++ (name ++ (' ' :: '{' :: (body ++ ('}' :: []))))))
        = '@' :: ("EnableAudit\n".toList
            ++ ("entity ".toList ++ (name ++ (' ' :: '{' :: (body ++ ('}' :: []))))))
      from rfl]
    rw [scanEntities_cons_some htry']
    rw [scanEntities_nil]
  have hscanDoc : scanEntities (commentedAuditDoc name body).length 0
      (commentedAuditDoc name body) = [(3, true, name, body)] := by
    rw [hdoc, show ('/' :: '/' :: ' ' :: ("@EnableAudit\n".toList
        ++ ("entity ".toList ++ (name ++ (' ' :: '{' :: (body ++ ('}' :: []))))))).length
        = ("@EnableAudit\n".toList
            ++ ("entity ".toList ++ (name ++ (' ' :: '{' :: (body ++ ('}' :: [])))))).length + 3
      from rfl]
    exact hscan
  have hcomm : isCommented (commentedAuditDoc name body) 3 = true := by
    unfold isCommented
    rw [show (commentedAuditDoc name body).take (3 + 1) = ['/', '/', ' ', '@'] from by
      rw [hdoc, show ("@EnableAudit\n".toList
          ++ ("entity ".toList ++ (name ++ (' ' :: '{' :: (body ++ ('}' :: []))))))
          = '@' :: ("EnableAudit\n".toList
              ++ ("entity ".toList ++ (name ++ (' ' :: '{' :: (body ++ ('}' :: []))))))
        from rfl]
      rfl]
    rw [show lastNewlineIdx ['/', '/', ' ', '@'] = none from by decide]
    show startsWithSlashSlash
      (trim (((commentedAuditDoc name body).drop 0).take (3 - 0))) = true
    rw [show ((commentedAuditDoc name body).drop 0).take (3 - 0) = ['/', '/', ' '] from by
      rw [List.drop_zero, hdoc]
      rfl]
    decide
  refine ⟨hscanDoc, hcomm, ?_⟩
  show (assembleFromClean (stripBlockComments (commentedAuditDoc name body))).entities = []
  rw [stripBlockComments_no_open hop]
  show valuesOf (entityMapOf (commentedAuditDoc name body)
    (enumMapOf (commentedAuditDoc name body))).own = []
  unfold entityMapOf entityRecordsOf keptEntityMatches
  rw [hscanDoc]
  rw [show [((3 : Nat), true, name, body)].filter
      (fun m => !isCommented (commentedAuditDoc name body) m.1)
      = [] from by
    rw [List.filter_cons]
    simp [hcomm]]
  rfl

/-- Witness for C10 at the concrete document
`// @EnableAudit\nentity Foo { x String }`. -/
theorem C10_witness :
    (parseJdl (commentedAuditDoc "Foo".toList " x String ".toList)).entities = [] :=
  (C10_commented_audit "Foo".toList " x String ".toList (by decide) (by decide)
    (by decide) (by decide) (by decide)).2.2

end TwHipster

